import Mathlib

/-!
Verification of the Tigerhacks-2025 Mars rover pathfinding core.

The Python sources are shallowly embedded:
* `astar_core.py` / `rover_astar_sim.py` (the two behaviourally identical A*
  implementations) as `astar` below, parametrised by a number model `NumOps C`;
  Python `float` arithmetic is idealised as exact rationals (`ratOps`), and the
  value `float("inf")` — producible by `WeightedCost`'s `block_penalty` — is
  modelled by the extended type `QI` (`qiOps`).  The `heapq` heap is modelled
  as a list from which the lexicographically least `(f, h, counter)` entry is
  popped; this is faithful because the strictly increasing counter makes all
  keys distinct, so the pop is uniquely determined.  The wall-clock check
  `time.time() - t0 > max_time_sec` is modelled by a per-iteration oracle
  `maxTime : ℕ → Bool` (`fun _ => false` when `max_time_sec is None`).
* `connectivity.py` (`nearest_unblocked`), `cost_layers.py` (`WeightedCost`),
  `costs.py` (`edge_cost_factory`), `geometry.py` (`horiz_dist_m`),
  `energy.py` / `energy_model.py` (`EnergyParams`, `move_energy_J`) directly.
-/

set_option maxHeartbeats 1000000
set_option maxRecDepth 10000

/-- Build the rational `n / d` in normal form by dividing out the gcd.  This is
kernel-computable (Mathlib's `Rat.add` etc. are `@[irreducible]`), and it is
proved equal to `(n : ℚ) / d` below; the search arithmetic is built on it so
that concrete runs can be evaluated by `decide`. -/
def qmk (n : ℤ) (d : ℕ) (hd : d ≠ 0) : ℚ :=
  ⟨n / n.natAbs.gcd d, d / n.natAbs.gcd d,
    by
      have hg : 0 < n.natAbs.gcd d :=
        Nat.gcd_pos_of_pos_right _ (Nat.pos_of_ne_zero hd)
      have : 0 < d / n.natAbs.gcd d :=
        Nat.div_pos (Nat.le_of_dvd (Nat.pos_of_ne_zero hd) (Nat.gcd_dvd_right _ _)) hg
      omega,
    by
      have hg : 0 < n.natAbs.gcd d :=
        Nat.gcd_pos_of_pos_right _ (Nat.pos_of_ne_zero hd)
      have hdvd : ((n.natAbs.gcd d : ℤ)) ∣ n :=
        Int.dvd_natAbs.mp (Int.natCast_dvd_natCast.mpr (Nat.gcd_dvd_left _ _))
      rw [Int.natAbs_ediv _ _ hdvd]
      simpa using Nat.coprime_div_gcd_div_gcd hg⟩

/-- Kernel-computable rational addition, equal to `a + b`. -/
def qadd (a b : ℚ) : ℚ :=
  qmk (a.num * b.den + b.num * a.den) (a.den * b.den)
    (Nat.mul_ne_zero a.den_nz b.den_nz)

/-- Kernel-computable rational subtraction, equal to `a - b`. -/
def qsub (a b : ℚ) : ℚ :=
  qmk (a.num * b.den - b.num * a.den) (a.den * b.den)
    (Nat.mul_ne_zero a.den_nz b.den_nz)

/-- Kernel-computable rational multiplication, equal to `a * b`. -/
def qmul (a b : ℚ) : ℚ :=
  qmk (a.num * b.num) (a.den * b.den) (Nat.mul_ne_zero a.den_nz b.den_nz)

/-- The Python literal `1e-12` idealised as the exact rational `10⁻¹²`. -/
def tolQ : ℚ := qmk 1 1000000000000 (by decide)

/-- Arithmetic operations of the number model used by the search; `subTol x`
models `x - 1e-12`. -/
structure NumOps (C : Type) where
  zero : C
  one : C
  add : C → C → C
  mul : C → C → C
  subTol : C → C
  blt : C → C → Bool
  ble : C → C → Bool

/-- Exact-rational model of Python float arithmetic. -/
def ratOps : NumOps ℚ where
  zero := 0
  one := 1
  add := qadd
  mul := qmul
  subTol := fun x => qsub x tolQ
  blt := fun a b => decide (a < b)
  ble := fun a b => decide (a ≤ b)

/-- Rationals extended with `float("inf")`, as produced by
`WeightedCost.block_penalty` in `cost_layers.py`. -/
inductive QI where
  | fin (q : ℚ)
  | inf
deriving DecidableEq

/-- Addition with `inf` absorbing, as for Python floats. -/
def QI.add : QI → QI → QI
  | QI.fin a, QI.fin b => QI.fin (qadd a b)
  | _, _ => QI.inf

/-- Multiplication; the search only multiplies finite values. -/
def QI.mul : QI → QI → QI
  | QI.fin a, QI.fin b => QI.fin (qmul a b)
  | _, _ => QI.inf

/-- `x - 1e-12`; `inf - 1e-12 = inf` as for Python floats. -/
def QI.subTol : QI → QI
  | QI.fin a => QI.fin (qsub a tolQ)
  | QI.inf => QI.inf

/-- Strict comparison; `inf` is greater than every finite value. -/
def QI.blt : QI → QI → Bool
  | QI.fin a, QI.fin b => decide (a < b)
  | QI.fin _, QI.inf => true
  | QI.inf, _ => false

/-- Non-strict comparison on `QI`. -/
def QI.ble : QI → QI → Bool
  | QI.fin a, QI.fin b => decide (a ≤ b)
  | QI.fin _, QI.inf => true
  | QI.inf, QI.inf => true
  | QI.inf, QI.fin _ => false

/-- Number model with `inf`, for cost functions that return `float("inf")`. -/
def qiOps : NumOps QI where
  zero := QI.fin 0
  one := QI.fin 1
  add := QI.add
  mul := QI.mul
  subTol := QI.subTol
  blt := QI.blt
  ble := QI.ble

/-- A heap entry `(f, h, counter, node)` as pushed by `heapq.heappush`. -/
structure Entry (C V : Type) where
  f : C
  h : C
  ctr : ℕ
  node : V
deriving DecidableEq

/-- Lexicographic comparison of heap entries, as Python compares the tuples
`(f, h, counter, node)`; the node component is never reached because counters
are unique. -/
def entryLt [DecidableEq C] (M : NumOps C) (a b : Entry C V) : Bool :=
  M.blt a.f b.f ||
    (decide (a.f = b.f) &&
      (M.blt a.h b.h || (decide (a.h = b.h) && decide (a.ctr < b.ctr))))

/-- Select the least entry (first one among `entryLt`-incomparable duplicates)
and return it with the remaining entries: the model of `heapq.heappop`. -/
def popMinAux [DecidableEq C] (M : NumOps C) :
    Entry C V → List (Entry C V) → Entry C V × List (Entry C V)
  | e, [] => (e, [])
  | e, x :: rest =>
      if entryLt M x e then
        let p := popMinAux M x rest
        (p.1, e :: p.2)
      else
        let p := popMinAux M e rest
        (p.1, x :: p.2)

/-- Insert into a list sorted ascending by `entryLt`. -/
def insEntry [DecidableEq C] (M : NumOps C) (e : Entry C V) :
    List (Entry C V) → List (Entry C V)
  | [] => [e]
  | x :: xs => if entryLt M x e then x :: insEntry M e xs else e :: x :: xs

/-- Sort ascending by `entryLt`: with `List.take k` this models
`heapq.nsmallest(k, openh)`. -/
def sortEntries [DecidableEq C] (M : NumOps C) :
    List (Entry C V) → List (Entry C V)
  | [] => []
  | x :: xs => insEntry M x (sortEntries M xs)

/-- First-match association-list lookup: the model of `dict` lookup, with
insertion modelled as consing (so the newest binding shadows older ones). -/
def alookup [DecidableEq V] : List (V × β) → V → Option β
  | [], _ => none
  | p :: rest, x => if x = p.1 then some p.2 else alookup rest x

/-- `parent.get(v)` in `reconstruct`: both a missing key and an explicit
`None` value yield `None`. -/
def pstep [DecidableEq V] (parent : List (V × Option V)) (v : V) : Option V :=
  match alookup parent v with
  | none => none
  | some o => o

/-- Fuelled parent-chain walk accumulating the path in forward order. -/
def reconstructAux [DecidableEq V] (parent : List (V × Option V)) :
    ℕ → V → List V → List V
  | 0, v, acc => v :: acc
  | n + 1, v, acc =>
      match pstep parent v with
      | none => v :: acc
      | some u => reconstructAux parent n u (v :: acc)

/-- `reconstruct(parent, goal)` from `astar_core.py`: follow parent links back
to the start and reverse.  The fuel `parent.length + 1` exceeds the length of
any acyclic parent chain, so the walk is the Python `while` loop. -/
def reconstruct [DecidableEq V] (parent : List (V × Option V)) (v : V) :
    List V :=
  reconstructAux parent (parent.length + 1) v []

/-- Search configuration: the keyword arguments of `astar`. -/
structure AParams (C : Type) where
  weight : C
  epsilon : Option C
  maxExpansions : Option ℕ
  maxTime : ℕ → Bool
  beamWidth : Option ℕ

/-- The mutable state of one `astar` invocation.  The Python `closed` set
always equals the set of elements of `expanded_order`, so it is represented by
the single field `order`. -/
structure AState (C V : Type) where
  openh : List (Entry C V)
  g : List (V × C)
  parent : List (V × Option V)
  counter : ℕ
  expansions : ℕ
  order : List V
  bestCost : Option C
  bestNode : Option V

/-- The tuple `path, total_cost, expansions, expanded_order` returned by
`astar` (`frontier_snaps` is always `None` and omitted).  `cost = none`
models `float("inf")`. -/
structure AResult (C V : Type) where
  path : Option (List V)
  cost : Option C
  expansions : ℕ
  order : List V
deriving DecidableEq

/-- The `return` executed on budget expiry and on open-heap exhaustion:
the best goal candidate if one was recorded, else no path at infinite cost. -/
def bestResult [DecidableEq V] (st : AState C V) : AResult C V :=
  match st.bestNode with
  | some n => ⟨some (reconstruct st.parent n), st.bestCost, st.expansions, st.order⟩
  | none => ⟨none, none, st.expansions, st.order⟩

/-- One step of the neighbour loop of `astar` for neighbour `v`: skip
impassable (`None`) edges and closed nodes, relax when `alt < old - 1e-12`,
push a heap entry keyed `alt + weight*h(v)`, and record a goal candidate. -/
def relaxStep [DecidableEq C] [DecidableEq V] (M : NumOps C) (goal : V)
    (cost : V → V → Option C) (hf : V → C) (wt : C) (u : V) (gu : C)
    (st : AState C V) (v : V) : AState C V :=
  match cost u v with
  | none => st
  | some c =>
    let alt := M.add gu c
    if v ∈ st.order then st
    else
      let doRelax : Bool :=
        match alookup st.g v with
        | none => true
        | some old => M.blt alt (M.subTol old)
      if doRelax then
        let hv := hf v
        let ctr := st.counter + 1
        let best : Option C × Option V :=
          if v = goal then
            match st.bestCost with
            | none => (some alt, some v)
            | some b =>
                if M.blt alt (M.subTol b) then (some alt, some v)
                else (st.bestCost, st.bestNode)
          else (st.bestCost, st.bestNode)
        { st with
          openh := st.openh ++ [⟨M.add alt (M.mul wt hv), hv, ctr, v⟩]
          g := (v, alt) :: st.g
          parent := (v, some u) :: st.parent
          counter := ctr
          bestCost := best.1
          bestNode := best.2 }
      else st

/-- The full neighbour loop `for v in neighbors_fn(u)`. -/
def relaxNbrs [DecidableEq C] [DecidableEq V] (M : NumOps C) (goal : V)
    (cost : V → V → Option C) (hf : V → C) (wt : C) (u : V) (gu : C)
    (vs : List V) (st : AState C V) : AState C V :=
  vs.foldl (relaxStep M goal cost hf wt u gu) st

/-- The `(1+epsilon)`-early-exit test: an epsilon bound is configured, a goal
candidate has been recorded, and `best_goal_cost <= (1.0 + epsilon) * f` for
the f-value `f` of the entry just popped. -/
def epsExitCond (M : NumOps C) (P : AParams C) (bc : Option C) (f : C) : Bool :=
  match P.epsilon, bc with
  | some eps, some b => M.ble b (M.mul (M.add M.one eps) f)
  | _, _ => false

/-- The expansion-cap test `expansions >= max_expansions`. -/
def capCond (P : AParams C) (e : ℕ) : Bool :=
  match P.maxExpansions with
  | some m => decide (m ≤ e)
  | none => false

/-- Mark the popped node closed: append it to `expanded_order` and count one
expansion. -/
def closeNode (st : AState C V) (u : V) : AState C V :=
  { st with order := st.order ++ [u], expansions := st.expansions + 1 }

/-- Beam pruning: truncate the open heap to the `beam_width` smallest entries
(`heapq.nsmallest`). -/
def beamPrune [DecidableEq C] [DecidableEq V] (M : NumOps C) (P : AParams C)
    (st : AState C V) : AState C V :=
  match P.beamWidth with
  | some k =>
      if k < st.openh.length then
        { st with openh := (sortEntries M st.openh).take k }
      else st
  | none => st

/-- The main `while openh:` loop of `astar`, fuelled; `none` means the fuel
ran out (the Python loop always terminates on the runs the theorems consider,
and concrete witnesses supply ample fuel).  `iter` indexes the wall-clock
oracle. -/
def astarLoop [DecidableEq C] [DecidableEq V] (M : NumOps C) (goal : V)
    (nbrs : V → List V) (cost : V → V → Option C) (hf : V → C)
    (P : AParams C) : ℕ → ℕ → AState C V → Option (AResult C V)
  | 0, _, _ => none
  | fuel + 1, iter, st =>
    match st.openh with
    | [] => some (bestResult st)
    | e0 :: rest =>
      if P.maxTime iter then some (bestResult st)
      else
        let pr := popMinAux M e0 rest
        let u := pr.1.node
        let st1 : AState C V := { st with openh := pr.2 }
        if epsExitCond M P st1.bestCost pr.1.f then
          some ⟨some (reconstruct st1.parent (st1.bestNode.getD u)),
            st1.bestCost, st1.expansions, st1.order⟩
        else if u ∈ st1.order then
          astarLoop M goal nbrs cost hf P fuel (iter + 1) st1
        else
          let st2 := closeNode st1 u
          if capCond P st2.expansions then some (bestResult st2)
          else if u = goal then
            some ⟨some (reconstruct st2.parent u), alookup st2.g u,
              st2.expansions, st2.order⟩
          else
            let gu := (alookup st2.g u).getD M.zero
            let st3 := relaxNbrs M goal cost hf P.weight u gu (nbrs u) st2
            astarLoop M goal nbrs cost hf P fuel (iter + 1) (beamPrune M P st3)

/-- The initial search state built by `astar` before its main loop. -/
def initState [DecidableEq V] (M : NumOps C) (start : V) (hf : V → C)
    (wt : C) : AState C V :=
  { openh := [⟨M.mul (hf start) wt, hf start, 0, start⟩]
    g := [(start, M.zero)]
    parent := [(start, none)]
    counter := 0
    expansions := 0
    order := []
    bestCost := none
    bestNode := none }

/-- `astar` from `astar_core.py` (behaviourally identical to the copy in
`rover_astar_sim.py`): trivial-case check, then the fuelled main loop. -/
def astar [DecidableEq C] [DecidableEq V] (M : NumOps C) (start goal : V)
    (nbrs : V → List V) (cost : V → V → Option C) (hf : V → C)
    (P : AParams C) (fuel : ℕ) : Option (AResult C V) :=
  if start = goal then some ⟨some [start], some M.zero, 0, [start]⟩
  else astarLoop M goal nbrs cost hf P fuel 0 (initState M start hf P.weight)

/-- `neighbors_8` from `astar_core.py`: the up-to-8 in-bounds neighbours of a
cell, in the Python generator's `(dr, dc)` order. -/
def neighbors_8 (u : ℕ × ℕ) (H W : ℕ) : List (ℕ × ℕ) :=
  (([-1, 0, 1] : List ℤ).flatMap fun dr =>
    ([-1, 0, 1] : List ℤ).filterMap fun dc =>
      if dr = 0 ∧ dc = 0 then none
      else
        let rr := (u.1 : ℤ) + dr
        let cc := (u.2 : ℤ) + dc
        if 0 ≤ rr ∧ rr < (H : ℤ) ∧ 0 ≤ cc ∧ cc < (W : ℤ) then
          some (rr.toNat, cc.toNat)
        else none)

/-- Squared Euclidean distance `(rr - r)*(rr - r) + (cc - c)*(cc - c)` used by
`nearest_unblocked` in `connectivity.py`. -/
def cellD2 (r c : ℕ) (v : ℕ × ℕ) : ℤ :=
  ((v.1 : ℤ) - (r : ℤ)) ^ 2 + ((v.2 : ℤ) - (c : ℤ)) ^ 2

/-- One cell of the window scan of `nearest_unblocked`: skip blocked cells and
record a strictly smaller squared distance. -/
def scanCell (blocked : ℕ → ℕ → Bool) (r c : ℕ)
    (st : Option (ℕ × ℕ) × ℤ) (cell : ℕ × ℕ) : Option (ℕ × ℕ) × ℤ :=
  if blocked cell.1 cell.2 then st
  else if cellD2 r c cell < st.2 then (some cell, cellD2 r c cell) else st

/-- The border-clipped square window
`[max(0, r-rad), min(H-1, r+rad)] x [max(0, c-rad), min(W-1, c+rad)]`
scanned at ring radius `rad`, in the row-major order of the Python loops
(truncated ℕ subtraction is exactly `max(0, ·)`). -/
def windowCells (r c rad H W : ℕ) : List (ℕ × ℕ) :=
  (List.range' (r - rad) (min (H - 1) (r + rad) + 1 - (r - rad))).flatMap
    fun rr =>
      (List.range' (c - rad) (min (W - 1) (c + rad) + 1 - (c - rad))).map
        fun cc => (rr, cc)

/-- The `for rad in range(1, max_radius + 1)` loop of `nearest_unblocked`:
scan the window, return the best candidate as soon as one exists. -/
def nuLoop (blocked : ℕ → ℕ → Bool) (H W r c : ℕ) :
    List ℕ → Option (ℕ × ℕ) × ℤ → Option (ℕ × ℕ)
  | [], _ => none
  | rad :: rads, st =>
      let st1 := (windowCells r c rad H W).foldl (scanCell blocked r c) st
      match st1.1 with
      | some b => some b
      | none => nuLoop blocked H W r c rads st1

/-- `nearest_unblocked` from `connectivity.py`; the numpy mask of shape
`(H, W)` is modelled by the function `blocked` (only in-bounds cells are ever
read).  `best_d2` starts at the Python literal `1e18`. -/
def nearest_unblocked (rc : ℕ × ℕ) (blocked : ℕ → ℕ → Bool) (H W : ℕ)
    (maxRadius : ℕ) : ℕ × ℕ :=
  if blocked rc.1 rc.2 = false then rc
  else
    match nuLoop blocked H W rc.1 rc.2 (List.range' 1 maxRadius)
        (none, 10 ^ 18) with
    | some b => b
    | none => rc

/-- Adjacent-pair validity of a path: every consecutive pair `(u, v)` was
generated by the neighbour function and had a non-`None` edge cost. -/
def ChainOK (nbrs : V → List V) (cost : V → V → Option C) : List V → Prop
  | [] => True
  | [_] => True
  | a :: b :: rest =>
      (b ∈ nbrs a ∧ cost a b ≠ none) ∧ ChainOK nbrs cost (b :: rest)

/-- `p` is a chain of parent links from `start` to `x`; `reconstruct` returns
such chains. -/
inductive PChain [DecidableEq V] (parent : List (V × Option V)) (start : V) :
    V → List V → Prop
  | base : PChain parent start start [start]
  | step {u v : V} {p : List V} : PChain parent start u p →
      alookup parent v = some (some u) → PChain parent start v (p ++ [v])

/-- Walk-termination rank of a node: its closure index, or the number of
closed nodes if it is not closed.  Parent links strictly decrease it. -/
def chainRank [DecidableEq V] (order : List V) (x : V) : ℕ :=
  if x ∈ order then order.indexOf x else order.length

/-- Bookkeeping invariant of the `astar` loop tying the parent map to the
neighbour function, the edge costs and the closure order; it holds for every
configuration (beam, caps and epsilon included). -/
structure PInv [DecidableEq V] (nbrs : V → List V) (cost : V → V → Option C)
    (start goal : V) (st : AState C V) : Prop where
  startBind : alookup st.parent start = some none
  noneOnlyStart : ∀ v, alookup st.parent v = some none → v = start
  bindEdge : ∀ v u, alookup st.parent v = some (some u) →
    v ∈ nbrs u ∧ cost u v ≠ none ∧ u ∈ st.order
  bindLt : ∀ v u, alookup st.parent v = some (some u) → v ∈ st.order →
    st.order.indexOf u < st.order.indexOf v
  orderKeyed : ∀ u ∈ st.order, ∃ o, alookup st.parent u = some o
  heapKeyed : ∀ e ∈ st.openh, ∃ o, alookup st.parent e.node = some o
  bestOK : (st.bestNode = none ∧ st.bestCost = none) ∨
    (st.bestNode = some goal ∧ (∃ o, alookup st.parent goal = some o) ∧
      ∃ b, st.bestCost = some b)
  orderNodup : st.order.Nodup
  startOrder : start ∈ st.order ∨ st.parent = [(start, none)]

/-- Adjacent-pair blocked-freedom: no consecutive pair of the path has a
blocked destination. -/
def ChainBlockedFree (blk : V → Bool) : List V → Prop
  | [] => True
  | [_] => True
  | _ :: b :: rest => blk b = false ∧ ChainBlockedFree blk (b :: rest)

/-- `WeightedCost.edge_cost_fn` from `cost_layers.py` over exact rationals
extended with `inf`: out-of-bounds or blocked destinations yield
`block_penalty` (default `np.inf = QI.inf`), otherwise
`meters_per_cell * step * (w_dist + w_slope*(slope(v)/45) + w_rough*rough(v))`
with `step = diag_cost` on diagonal moves and `1` otherwise. -/
def WeightedCost_edge_cost (w_dist w_slope w_rough diag_cost : ℚ)
    (block_penalty : QI) (slope rough : ℕ → ℕ → ℚ) (blocked : ℕ → ℕ → Bool)
    (meters_per_cell : ℚ) (H W : ℕ) (u v : ℕ × ℕ) : QI :=
  if ¬(v.1 < H ∧ v.2 < W) then block_penalty
  else if blocked v.1 v.2 then block_penalty
  else
    let step : ℚ := if v.1 ≠ u.1 ∧ v.2 ≠ u.2 then diag_cost else 1
    QI.fin (qmul (qmul meters_per_cell step)
      (qadd (qadd w_dist
        (qmul w_slope (qmul (slope v.1 v.2) (qmk 1 45 (by decide)))))
        (qmul w_rough (rough v.1 v.2))))

/-- `CostLayers` from `cost_layers.py` (real-valued layers as functions). -/
structure CostLayersR where
  height : Option (ℕ → ℕ → ℝ)
  slope : ℕ → ℕ → ℝ
  rough : ℕ → ℕ → ℝ
  blocked : ℕ → ℕ → Bool
  meters_per_cell : ℝ

/-- `WeightedCost.edge_cost_fn` over the reals (with `⊤` for the `inf`
block penalty), used to state the cost-formula claims with the exact `√2`
default diagonal multiplier. -/
noncomputable def WeightedCostR_edge_cost (w_dist w_slope w_rough diag_cost : ℝ)
    (block_penalty : WithTop ℝ) (layers : CostLayersR) (H W : ℕ)
    (u v : ℕ × ℕ) : WithTop ℝ :=
  if ¬(v.1 < H ∧ v.2 < W) then block_penalty
  else if layers.blocked v.1 v.2 then block_penalty
  else
    let step : ℝ := if v.1 ≠ u.1 ∧ v.2 ≠ u.2 then diag_cost else 1
    ((layers.meters_per_cell * step *
      (w_dist + w_slope * (layers.slope v.1 v.2 / 45) +
        w_rough * layers.rough v.1 v.2) : ℝ) : WithTop ℝ)

/-- `MARS_R` from `config.py`. -/
def MARS_R : ℝ := 3390000

/-- `EDGE_TOL = 1.10` from `config.py`. -/
noncomputable def EDGE_TOL : ℝ := 11 / 10

/-- `horiz_dist_m` from `geometry.py`: equirectangular approximation
`hypot((lon2-lon1)·rad·cos(mean_lat·rad)·R, (lat2-lat1)·rad·R)`. -/
noncomputable def horiz_dist_m (lon1 lat1 lon2 lat2 : ℝ) : ℝ :=
  Real.sqrt
    (((lon2 - lon1) * (Real.pi / 180) *
        Real.cos ((lat1 + lat2) * (1 / 2) * (Real.pi / 180)) * MARS_R) ^ 2 +
      ((lat2 - lat1) * (Real.pi / 180) * MARS_R) ^ 2)

/-- `Layers` from `models.py`. -/
structure Layers where
  elevation_m : ℕ → ℕ → ℝ
  rough : ℕ → ℕ → ℝ
  blocked : ℕ → ℕ → Bool

/-- The inner `edge_cost` of `edge_cost_factory` from `costs.py`: `None` for
blocked destinations, near-zero horizontal distance, or grade above
`max_grade * EDGE_TOL`; otherwise `hd * (1 + slope_weight * grade)` with
`grade = |Δelevation| / hd`. -/
noncomputable def edge_cost (layers : Layers) (slope_weight max_grade : ℝ)
    (rc_to_lonlat : ℕ → ℕ → ℝ × ℝ) (u v : ℕ × ℕ) : Option ℝ :=
  if layers.blocked v.1 v.2 then none
  else
    let hd := horiz_dist_m (rc_to_lonlat u.1 u.2).1 (rc_to_lonlat u.1 u.2).2
      (rc_to_lonlat v.1 v.2).1 (rc_to_lonlat v.1 v.2).2
    if hd ≤ 1 / 1000000 then none
    else
      let dh := layers.elevation_m v.1 v.2 - layers.elevation_m u.1 u.2
      let grade := |dh| / hd
      if grade > max_grade * EDGE_TOL then none
      else some (hd * (1 + slope_weight * grade))

/-- `EnergyParams` from `mars_pathfinder/energy.py`: a plain dataclass — no
clamping of any field happens at construction or use (except `eta` at the
division site in `move_energy_J`). -/
structure EnergyParams where
  mass_kg : ℝ
  g : ℝ
  Crr : ℝ
  eta : ℝ
  meters_per_cell : ℝ
  k_rough_J_per_m : ℝ
  downhill_regen_eff : ℝ
  min_grade : ℝ
  max_grade : ℝ

/-- `_grid_step_m` from `energy.py`/`energy_model.py`. -/
noncomputable def grid_step_m (dr dc : ℤ) (meters_per_cell : ℝ) : ℝ :=
  (if dr ≠ 0 ∧ dc ≠ 0 then Real.sqrt 2 else 1) * meters_per_cell

/-- The step distance `d_m` of `move_energy_J`. -/
noncomputable def move_d_m (u v : ℕ × ℕ) (P : EnergyParams) : ℝ :=
  grid_step_m ((v.1 : ℤ) - (u.1 : ℤ)) ((v.2 : ℤ) - (u.2 : ℤ))
    P.meters_per_cell

/-- The clamped grade of `move_energy_J`:
`max(min_grade, min(max_grade, dh/d))` with `grade = 0` when `d ≤ 0`. -/
noncomputable def move_grade (u v : ℕ × ℕ) (layers : Layers)
    (P : EnergyParams) : ℝ :=
  max P.min_grade (min P.max_grade
    (if 0 < move_d_m u v P then
      (layers.elevation_m v.1 v.2 - layers.elevation_m u.1 u.2) /
        move_d_m u v P
    else 0))

/-- `theta = atan(grade)` of `move_energy_J`. -/
noncomputable def move_theta (u v : ℕ × ℕ) (layers : Layers)
    (P : EnergyParams) : ℝ :=
  Real.arctan (move_grade u v layers P)

/-- `E_grav_downhill = m*g*max(0, -sin θ)*d` of `move_energy_J`. -/
noncomputable def E_grav_downhill (u v : ℕ × ℕ) (layers : Layers)
    (P : EnergyParams) : ℝ :=
  P.mass_kg * P.g * max 0 (-Real.sin (move_theta u v layers P)) *
    move_d_m u v P

/-- `E_regen = downhill_regen_eff * E_grav_downhill` of `move_energy_J`. -/
noncomputable def E_regen (u v : ℕ × ℕ) (layers : Layers)
    (P : EnergyParams) : ℝ :=
  P.downhill_regen_eff * E_grav_downhill u v layers P

/-- `move_energy_J` from `mars_pathfinder/energy.py`: `None` when the
destination is blocked, else the clamped net battery draw. -/
noncomputable def move_energy_J (u v : ℕ × ℕ) (layers : Layers)
    (P : EnergyParams) : Option ℝ :=
  if layers.blocked v.1 v.2 then none
  else
    some (max 0
      ((P.mass_kg * P.g * max 0 (Real.sin (move_theta u v layers P)) +
          P.Crr * P.mass_kg * P.g * |Real.cos (move_theta u v layers P)|) *
          move_d_m u v P / max (1 / 1000000) (min 1 P.eta) +
        P.k_rough_J_per_m * layers.rough v.1 v.2 * move_d_m u v P -
        E_regen u v layers P))

/-- `EnergyParams` from `energy_model.py` (the `rover_astar_sim` pipeline);
build it with `mkEnergyParamsEM`, which applies the `__init__` clamps. -/
structure EnergyParamsEM where
  mass_kg : ℝ
  g : ℝ
  Crr : ℝ
  eta : ℝ
  meters_per_cell : ℝ
  height_scale_m : ℝ
  k_rough_J_per_m : ℝ
  downhill_regen_eff : ℝ
  min_grade : ℝ
  max_grade : ℝ

/-- The `EnergyParams.__init__` of `energy_model.py`:
`eta = max(1e-6, min(1.0, eta))` and
`downhill_regen_eff = max(0.0, min(0.5, downhill_regen_eff))`. -/
noncomputable def mkEnergyParamsEM (mass_kg g Crr eta meters_per_cell
    height_scale_m k_rough_J_per_m downhill_regen_eff min_grade max_grade :
    ℝ) : EnergyParamsEM :=
  ⟨mass_kg, g, Crr, max (1 / 1000000) (min 1 eta), meters_per_cell,
    height_scale_m, k_rough_J_per_m, max 0 (min (1 / 2) downhill_regen_eff),
    min_grade, max_grade⟩

/-- The elevation delta of `energy_model.move_energy_J` for `CostLayers`
input: normalized height difference times `height_scale_m` (0 when no DEM). -/
noncomputable def em_dh_m (u v : ℕ × ℕ) (layers : CostLayersR)
    (P : EnergyParamsEM) : ℝ :=
  (match layers.height with
    | some hgt => hgt v.1 v.2 - hgt u.1 u.2
    | none => 0) * P.height_scale_m

/-- `theta` of `energy_model.move_energy_J`. -/
noncomputable def em_theta (u v : ℕ × ℕ) (layers : CostLayersR)
    (P : EnergyParamsEM) : ℝ :=
  Real.arctan (max P.min_grade (min P.max_grade
    (if 0 < grid_step_m ((v.1 : ℤ) - (u.1 : ℤ)) ((v.2 : ℤ) - (u.2 : ℤ))
        P.meters_per_cell then
      em_dh_m u v layers P /
        grid_step_m ((v.1 : ℤ) - (u.1 : ℤ)) ((v.2 : ℤ) - (u.2 : ℤ))
          P.meters_per_cell
    else 0)))

/-- `E_grav_downhill` of `energy_model.move_energy_J`. -/
noncomputable def em_E_grav_downhill (u v : ℕ × ℕ) (layers : CostLayersR)
    (P : EnergyParamsEM) : ℝ :=
  P.mass_kg * P.g * max 0 (-Real.sin (em_theta u v layers P)) *
    grid_step_m ((v.1 : ℤ) - (u.1 : ℤ)) ((v.2 : ℤ) - (u.2 : ℤ))
      P.meters_per_cell

/-- `E_regen` of `energy_model.move_energy_J`. -/
noncomputable def em_E_regen (u v : ℕ × ℕ) (layers : CostLayersR)
    (P : EnergyParamsEM) : ℝ :=
  P.downhill_regen_eff * em_E_grav_downhill u v layers P

/-- Terrain of the C3 counterexample: flat except cell `(0,2)` at 5 m; no
cell blocked. -/
noncomputable def c3Layers : Layers :=
  ⟨fun _ c => if c = 2 then 5 else 0, fun _ _ => 0, fun _ _ => false⟩

/-- Cell-centre coordinates of the C3 counterexample: cell `(r, c)` sits at
longitude `c` degrees on the equator. -/
noncomputable def c3LonLat (_r c : ℕ) : ℝ × ℝ := ((c : ℝ), 0)

/-- The geodesic step distance used by `costs.edge_cost`: the
`horiz_dist_m` between the lon/lat centres of the two cells. -/
noncomputable def geoHd (ll : ℕ → ℕ → ℝ × ℝ) (u v : ℕ × ℕ) : ℝ :=
  horiz_dist_m (ll u.1 u.2).1 (ll u.1 u.2).2 (ll v.1 v.2).1 (ll v.1 v.2).2

/-- The grade used by `costs.edge_cost`: `|Δelevation| / hd`. -/
noncomputable def geoGrade (layers : Layers) (ll : ℕ → ℕ → ℝ × ℝ)
    (u v : ℕ × ℕ) : ℝ :=
  |layers.elevation_m v.1 v.2 - layers.elevation_m u.1 u.2| / geoHd ll u v

/-- Terrain of the C6 counterexample: a 5 m drop from `(0,0)` to `(0,1)`,
nothing blocked, zero roughness. -/
noncomputable def c6Layers : Layers :=
  ⟨fun _ c => if c = 0 then 2 else 0, fun _ _ => 0, fun _ _ => false⟩

/-- `EnergyParams` construction of the C6 counterexample: the
`mars_pathfinder/energy.py` dataclass accepts `downhill_regen_eff = 0.9`
unchanged. -/
noncomputable def c6P : EnergyParams := ⟨1, 1, 0, 1, 1, 0, 9 / 10, -1, 1⟩

/-- Path-cost semantics of the search graph: `Reach nbrs cost src v d`
holds when some path from `src` to `v` along `nbrs`-generated edges with
non-`None` costs has total cost `d`. -/
inductive Reach (nbrs : V → List V) (cost : V → V → Option ℚ) (src : V) :
    V → ℚ → Prop
  | base : Reach nbrs cost src src 0
  | step {u v : V} {d c : ℚ} : Reach nbrs cost src u d → v ∈ nbrs u →
      cost u v = some c → Reach nbrs cost src v (d + c)

/-- The spec's independent reference shortest-path computation, stated
mathematically: `d` is the cost of some start-to-goal path and no path is
cheaper. -/
def IsShortestPathCost (nbrs : V → List V) (cost : V → V → Option ℚ)
    (src goal : V) (d : ℚ) : Prop :=
  Reach nbrs cost src goal d ∧ ∀ d', Reach nbrs cost src goal d' → d ≤ d'

/-- Tolerance separation: any two path costs to the same node are equal or
differ by more than the code's relaxation tolerance `1e-12`, so the code's
comparison `alt < old - 1e-12` decides `alt < old` exactly.  (Integer-valued
cost functions, for instance, satisfy it.) -/
def SepCosts (nbrs : V → List V) (cost : V → V → Option ℚ) (src : V) : Prop :=
  ∀ v d d', Reach nbrs cost src v d → Reach nbrs cost src v d' →
    d = d' ∨ tolQ < |d - d'|

/-- The optimality invariant of the `astar` loop for weight 1, no caps and
no beam, over exact rationals: `g`-values are realized path costs, closed
nodes carry optimal `g`, edges out of closed nodes are relaxed, every
unclosed bound node has a heap entry whose key under-approximates
`g + h`, and heap keys dominate the current `g + h` of their node. -/
structure OptInv [DecidableEq V] (nbrs : V → List V)
    (cost : V → V → Option ℚ) (hf : V → ℚ) (start goal : V)
    (st : AState ℚ V) : Prop where
  gReach : ∀ v d, alookup st.g v = some d → Reach nbrs cost start v d
  startG : alookup st.g start = some 0
  heapG : ∀ e ∈ st.openh, ∃ d, alookup st.g e.node = some d
  closedG : ∀ u ∈ st.order, ∃ d, alookup st.g u = some d
  closedOpt : ∀ u ∈ st.order, ∀ d, alookup st.g u = some d →
    ∀ D, Reach nbrs cost start u D → d ≤ D
  closedRelax : ∀ u ∈ st.order, ∀ v ∈ nbrs u, ∀ c, cost u v = some c →
    ∀ du, alookup st.g u = some du →
      ∃ dv, alookup st.g v = some dv ∧ dv ≤ du + c
  openBound : ∀ v, v ∉ st.order → ∀ dv, alookup st.g v = some dv →
    ∃ e ∈ st.openh, e.node = v ∧ e.f ≤ dv + hf v
  entryF : ∀ e ∈ st.openh, ∀ d, alookup st.g e.node = some d →
    d + hf e.node ≤ e.f
  goalOpen : goal ∉ st.order
  bestReach : ∀ b, st.bestCost = some b → Reach nbrs cost start goal b
  bestHeap : ∀ b, st.bestCost = some b → ∃ e ∈ st.openh, e.node = goal

/-- The invariant holding while the neighbours of the just-closed node `u`
(whose `g`-value is `gu`) are being relaxed: `OptInv` with the
closed-edges-relaxed property exempted at `u`. -/
structure MidInv [DecidableEq V] (nbrs : V → List V)
    (cost : V → V → Option ℚ) (hf : V → ℚ) (start goal u : V) (gu : ℚ)
    (st : AState ℚ V) : Prop where
  gReach : ∀ v d, alookup st.g v = some d → Reach nbrs cost start v d
  startG : alookup st.g start = some 0
  heapG : ∀ e ∈ st.openh, ∃ d, alookup st.g e.node = some d
  closedG : ∀ w ∈ st.order, ∃ d, alookup st.g w = some d
  closedOpt : ∀ w ∈ st.order, ∀ d, alookup st.g w = some d →
    ∀ D, Reach nbrs cost start w D → d ≤ D
  closedRelaxExc : ∀ w ∈ st.order, w ≠ u → ∀ v ∈ nbrs w, ∀ c,
    cost w v = some c → ∀ dw, alookup st.g w = some dw →
      ∃ dv, alookup st.g v = some dv ∧ dv ≤ dw + c
  openBound : ∀ v, v ∉ st.order → ∀ dv, alookup st.g v = some dv →
    ∃ e ∈ st.openh, e.node = v ∧ e.f ≤ dv + hf v
  entryF : ∀ e ∈ st.openh, ∀ d, alookup st.g e.node = some d →
    d + hf e.node ≤ e.f
  goalOpen : goal ∉ st.order
  bestReach : ∀ b, st.bestCost = some b → Reach nbrs cost start goal b
  bestHeap : ∀ b, st.bestCost = some b → ∃ e ∈ st.openh, e.node = goal
  uIn : u ∈ st.order
  uG : alookup st.g u = some gu

/-- Neighbour function of the C1/C5 counterexample graph. -/
def c1nbrs (u : ℕ) : List ℕ :=
  if u = 0 then [1, 2] else if u = 1 then [2] else if u = 2 then [3] else []

/-- Edge costs of the C1/C5 counterexample graph. -/
def c1cost (u v : ℕ) : Option ℚ :=
  if u = 0 ∧ v = 1 then some 1
  else if u = 0 ∧ v = 2 then some 3
  else if u = 1 ∧ v = 2 then some 1
  else if u = 2 ∧ v = 3 then some 100
  else none

/-- Heuristic of the C1/C5 counterexample: admissible (every value bounds
the remaining distance to node 3) but not consistent across edge `(0, 1)`. -/
def c1hf (v : ℕ) : ℚ := if v = 1 then 100 else 0

/-- Two-node graph used by the C1/C5 witnesses. -/
def wnbrs (u : ℕ) : List ℕ := if u = 0 then [1] else []

/-- Edge costs of the witness graph: one unit edge `0 → 1`. -/
def wcost (u v : ℕ) : Option ℚ := if u = 0 ∧ v = 1 then some 1 else none

/-- Consistent heuristic of the witness graph (goal 1). -/
def whf (v : ℕ) : ℚ := if v = 0 then 1 else 0

/-! ### Theorems -/

theorem mkRat_div_gcd_eq (n : ℤ) (d : ℕ) (g : ℕ) (hg : g ≠ 0)
    (h1 : (g : ℤ) ∣ n) (h2 : g ∣ d) :
    mkRat (n / (g : ℤ)) (d / g) = mkRat n d := by
  conv_rhs => rw [← Int.ediv_mul_cancel h1, ← Nat.div_mul_cancel h2]
  exact (Rat.mkRat_mul_right hg).symm

theorem qmk_eq_mkRat (n : ℤ) (d : ℕ) (hd : d ≠ 0) : qmk n d hd = mkRat n d := by
  rw [qmk, Rat.mk_eq_mkRat]
  exact mkRat_div_gcd_eq n d _ (fun h => hd (Nat.eq_zero_of_gcd_eq_zero_right h))
    (Int.dvd_natAbs.mp (Int.natCast_dvd_natCast.mpr (Nat.gcd_dvd_left _ _)))
    (Nat.gcd_dvd_right _ _)

theorem qadd_eq (a b : ℚ) : qadd a b = a + b := by
  rw [qadd, qmk_eq_mkRat, Rat.add_def']

theorem qsub_eq (a b : ℚ) : qsub a b = a - b := by
  rw [qsub, qmk_eq_mkRat, Rat.sub_def']

theorem qmul_eq (a b : ℚ) : qmul a b = a * b := by
  rw [qmul, qmk_eq_mkRat, Rat.mul_def, Rat.normalize_eq_mkRat]

theorem tolQ_eq : tolQ = 1 / 1000000000000 := by
  rw [tolQ, qmk_eq_mkRat]
  norm_num [Rat.mkRat_eq_div]

theorem tolQ_pos : 0 < tolQ := by rw [tolQ_eq]; norm_num

/-- C9: two invocations of `astar` with identical inputs (same start, goal,
neighbour function, edge-cost function, heuristic function, and configuration,
over any number model) return the identical path, identical total cost and
identical expansion count.  The embedding is a pure function of its inputs —
the Python code iterates only over deterministically ordered structures (the
heap keys are totally ordered by the unique insertion counter, neighbour
generators are iterated in their own order, and no set/dict iteration order is
observed) — so the two results coincide. -/
theorem astar_deterministic (C V : Type) [DecidableEq C] [DecidableEq V]
    (M : NumOps C) (start goal : V) (nbrs : V → List V)
    (cost : V → V → Option C) (hf : V → C) (P : AParams C) (fuel : ℕ)
    (res1 res2 : AResult C V)
    (h1 : astar M start goal nbrs cost hf P fuel = some res1)
    (h2 : astar M start goal nbrs cost hf P fuel = some res2) :
    res1.path = res2.path ∧ res1.cost = res2.cost ∧
      res1.expansions = res2.expansions := by
  rw [h1] at h2
  cases h2
  exact ⟨rfl, rfl, rfl⟩

theorem astar_deterministic_witness :
    ((⟨some [0, 1], some 1, 2, [0, 1]⟩ : AResult ℚ ℕ).path =
        (⟨some [0, 1], some 1, 2, [0, 1]⟩ : AResult ℚ ℕ).path ∧
      (⟨some [0, 1], some 1, 2, [0, 1]⟩ : AResult ℚ ℕ).cost =
        (⟨some [0, 1], some 1, 2, [0, 1]⟩ : AResult ℚ ℕ).cost ∧
      (⟨some [0, 1], some 1, 2, [0, 1]⟩ : AResult ℚ ℕ).expansions =
        (⟨some [0, 1], some 1, 2, [0, 1]⟩ : AResult ℚ ℕ).expansions) :=
  astar_deterministic ℚ ℕ ratOps 0 1 (fun _ => [1]) (fun _ _ => some 1)
    (fun _ => 0)
    ⟨1, none, none, fun _ => false, none⟩ 10 _ _ (by decide) (by decide)

/-- C7: when the wall-clock budget expires at the top of an iteration, or the
expansion-count budget is hit right after closing a node, `astar` returns the
best goal candidate recorded so far if one exists and otherwise reports
failure with no path and infinite cost (`bestResult`); in particular with
`max_expansions = 1` (and no time cap) any search with `start ≠ goal` returns
no path, infinite cost and one expansion — never an exception. -/
theorem astar_budget_expiry :
    (∀ (C V : Type) [DecidableEq C] [DecidableEq V] (M : NumOps C) (goal : V)
        (nbrs : V → List V) (cost : V → V → Option C) (hf : V → C)
        (P : AParams C) (fuel iter : ℕ) (st : AState C V),
      st.openh ≠ [] → P.maxTime iter = true →
      astarLoop M goal nbrs cost hf P (fuel + 1) iter st =
        some (bestResult st)) ∧
    (∀ (C V : Type) [DecidableEq C] [DecidableEq V] (M : NumOps C) (goal : V)
        (nbrs : V → List V) (cost : V → V → Option C) (hf : V → C)
        (P : AParams C) (fuel iter : ℕ) (st : AState C V)
        (e0 : Entry C V) (rest : List (Entry C V)),
      st.openh = e0 :: rest → P.maxTime iter = false →
      epsExitCond M P st.bestCost (popMinAux M e0 rest).1.f = false →
      (popMinAux M e0 rest).1.node ∉ st.order →
      capCond P (st.expansions + 1) = true →
      astarLoop M goal nbrs cost hf P (fuel + 1) iter st =
        some (bestResult
          (closeNode { st with openh := (popMinAux M e0 rest).2 }
            (popMinAux M e0 rest).1.node))) ∧
    (∀ (C V : Type) [DecidableEq C] [DecidableEq V] (M : NumOps C)
        (start goal : V) (nbrs : V → List V) (cost : V → V → Option C)
        (hf : V → C) (wt : C) (eps : Option C) (beam : Option ℕ) (fuel : ℕ),
      start ≠ goal →
      astar M start goal nbrs cost hf
          ⟨wt, eps, some 1, fun _ => false, beam⟩ (fuel + 1) =
        some ⟨none, none, 1, [start]⟩) := by
  refine ⟨?_, ?_, ?_⟩
  · intro C V _ _ M goal nbrs cost hf P fuel iter st hne ht
    obtain ⟨e0, rest, h⟩ : ∃ e0 rest, st.openh = e0 :: rest := by
      cases hO : st.openh with
      | nil => exact absurd hO hne
      | cons a l => exact ⟨a, l, rfl⟩
    simp [astarLoop, h, ht]
  · intro C V _ _ M goal nbrs cost hf P fuel iter st e0 rest h1 h2 h3 h4 h5
    simp only [astarLoop, h1, h2, Bool.false_eq_true, if_false]
    rw [if_neg (by simpa using h3), if_neg (by simpa using h4)]
    simp only [closeNode]
    rw [if_pos (by simpa [closeNode] using h5)]
  · intro C V _ _ M start goal nbrs cost hf wt eps beam fuel hsg
    simp only [astar, if_neg hsg, astarLoop, initState, popMinAux]
    cases eps <;>
      simp [epsExitCond, closeNode, capCond, bestResult, popMinAux]

theorem astar_budget_expiry_witness :
    astar ratOps 0 5 (fun _ => ([] : List ℕ)) (fun _ _ => none) (fun _ => 0)
        ⟨1, none, some 1, fun _ => false, none⟩ 10 =
      some ⟨none, none, 1, [0]⟩ :=
  astar_budget_expiry.2.2 ℚ ℕ ratOps 0 5 (fun _ => []) (fun _ _ => none)
    (fun _ => 0) 1 none none 9 (by decide)

theorem scanFold_snd_le (blocked : ℕ → ℕ → Bool) (r c : ℕ)
    (l : List (ℕ × ℕ)) (st : Option (ℕ × ℕ) × ℤ) :
    (l.foldl (scanCell blocked r c) st).2 ≤ st.2 := by
  induction l generalizing st with
  | nil => exact le_refl _
  | cons x xs ih =>
    refine le_trans (ih (scanCell blocked r c st x)) ?_
    by_cases hb : blocked x.1 x.2
    · simp [scanCell, hb]
    · by_cases hd : cellD2 r c x < st.2
      · simp [scanCell, hb, hd]
        exact le_of_lt hd
      · simp [scanCell, hb, hd]

theorem scanFold_min (blocked : ℕ → ℕ → Bool) (r c : ℕ)
    (l : List (ℕ × ℕ)) (st : Option (ℕ × ℕ) × ℤ) (w : ℕ × ℕ)
    (hw : w ∈ l) (hub : blocked w.1 w.2 = false) :
    (l.foldl (scanCell blocked r c) st).2 ≤ cellD2 r c w := by
  induction l generalizing st with
  | nil => cases hw
  | cons x xs ih =>
    rcases List.mem_cons.mp hw with rfl | hw2
    · refine le_trans (scanFold_snd_le blocked r c xs _) ?_
      by_cases hd : cellD2 r c w < st.2
      · simp [scanCell, hub, hd]
      · simp [scanCell, hub, hd]
        omega
    · exact ih (scanCell blocked r c st x) hw2

theorem scanFold_none_of_none (blocked : ℕ → ℕ → Bool) (r c : ℕ)
    (l : List (ℕ × ℕ)) (st : Option (ℕ × ℕ) × ℤ)
    (h : (l.foldl (scanCell blocked r c) st).1 = none) : st.1 = none := by
  induction l generalizing st with
  | nil => exact h
  | cons x xs ih =>
    have h1 := ih _ h
    by_cases hb : blocked x.1 x.2
    · simpa [scanCell, hb] using h1
    · by_cases hd : cellD2 r c x < st.2
      · simp [scanCell, hb, hd] at h1
      · simpa [scanCell, hb, hd] using h1

theorem scanFold_none (blocked : ℕ → ℕ → Bool) (r c : ℕ)
    (l : List (ℕ × ℕ)) (st : Option (ℕ × ℕ) × ℤ)
    (h : (l.foldl (scanCell blocked r c) st).1 = none) :
    l.foldl (scanCell blocked r c) st = st ∧
      ∀ w ∈ l, blocked w.1 w.2 = false → ¬(cellD2 r c w < st.2) := by
  induction l generalizing st with
  | nil => exact ⟨rfl, by simp⟩
  | cons x xs ih =>
    have hst1 : (xs.foldl (scanCell blocked r c) (scanCell blocked r c st x)).1 = none := h
    have h1 : (scanCell blocked r c st x).1 = none :=
      scanFold_none_of_none blocked r c xs _ hst1
    by_cases hb : blocked x.1 x.2
    · have heq : scanCell blocked r c st x = st := by simp [scanCell, hb]
      rw [heq] at hst1
      obtain ⟨he, hall⟩ := ih st hst1
      refine ⟨by simpa [List.foldl, heq] using he, ?_⟩
      intro w hw hub
      rcases List.mem_cons.mp hw with rfl | hw2
      · rw [hub] at hb; cases hb
      · exact hall w hw2 hub
    · by_cases hd : cellD2 r c x < st.2
      · exfalso
        simp [scanCell, hb, hd] at h1
      · have heq : scanCell blocked r c st x = st := by simp [scanCell, hb, hd]
        rw [heq] at hst1
        obtain ⟨he, hall⟩ := ih st hst1
        refine ⟨by simpa [List.foldl, heq] using he, ?_⟩
        intro w hw hub
        rcases List.mem_cons.mp hw with rfl | hw2
        · exact hd
        · exact hall w hw2 hub

theorem scanFold_track (blocked : ℕ → ℕ → Bool) (r c : ℕ)
    (l : List (ℕ × ℕ)) (st : Option (ℕ × ℕ) × ℤ) (b : ℕ × ℕ)
    (h : (l.foldl (scanCell blocked r c) st).1 = some b) :
    (st.1 = some b ∧ (l.foldl (scanCell blocked r c) st).2 = st.2) ∨
      (b ∈ l ∧ blocked b.1 b.2 = false ∧
        (l.foldl (scanCell blocked r c) st).2 = cellD2 r c b) := by
  induction l generalizing st with
  | nil => exact Or.inl ⟨h, rfl⟩
  | cons x xs ih =>
    simp only [List.foldl_cons] at h ⊢
    by_cases hb : blocked x.1 x.2
    · rw [show scanCell blocked r c st x = st from by simp [scanCell, hb]] at h ⊢
      rcases ih st h with h1 | h2
      · exact Or.inl h1
      · exact Or.inr ⟨List.mem_cons_of_mem _ h2.1, h2.2.1, h2.2.2⟩
    · by_cases hd : cellD2 r c x < st.2
      · rw [show scanCell blocked r c st x = (some x, cellD2 r c x) from by
          simp [scanCell, hb, hd]] at h ⊢
        rcases ih _ h with ⟨h1, h2⟩ | h2
        · obtain rfl : x = b := by simpa using h1
          exact Or.inr ⟨List.mem_cons_self .., by simpa using hb, by simpa using h2⟩
        · exact Or.inr ⟨List.mem_cons_of_mem _ h2.1, h2.2.1, h2.2.2⟩
      · rw [show scanCell blocked r c st x = st from by simp [scanCell, hb, hd]] at h ⊢
        rcases ih st h with h1 | h2
        · exact Or.inl h1
        · exact Or.inr ⟨List.mem_cons_of_mem _ h2.1, h2.2.1, h2.2.2⟩

theorem mem_windowCells (r c rad H W : ℕ) (v : ℕ × ℕ) :
    v ∈ windowCells r c rad H W ↔
      r - rad ≤ v.1 ∧ v.1 ≤ min (H - 1) (r + rad) ∧
      c - rad ≤ v.2 ∧ v.2 ≤ min (W - 1) (c + rad) := by
  obtain ⟨a, b⟩ := v
  simp only [windowCells, List.mem_flatMap, List.mem_map, List.mem_range'_1,
    Prod.mk.injEq]
  constructor
  · rintro ⟨rr, ⟨h1, h2⟩, cc, ⟨h3, h4⟩, rfl, rfl⟩
    refine ⟨h1, ?_, h3, ?_⟩ <;> omega
  · rintro ⟨h1, h2, h3, h4⟩
    exact ⟨a, ⟨h1, by omega⟩, b, ⟨h3, by omega⟩, rfl, rfl⟩

theorem windowCells_subset (r c rad rad' H W : ℕ) (h : rad ≤ rad') (v : ℕ × ℕ)
    (hv : v ∈ windowCells r c rad H W) : v ∈ windowCells r c rad' H W := by
  rw [mem_windowCells] at hv ⊢
  omega

theorem cellD2_lt_big (r c rad H W : ℕ) (hrad : ((rad : ℤ)) ^ 2 * 2 < 10 ^ 18)
    (v : ℕ × ℕ) (hv : v ∈ windowCells r c rad H W) :
    cellD2 r c v < 10 ^ 18 := by
  rw [mem_windowCells] at hv
  have h1 : -((rad : ℤ)) ≤ (v.1 : ℤ) - (r : ℤ) ∧ (v.1 : ℤ) - (r : ℤ) ≤ rad := by
    omega
  have h2 : -((rad : ℤ)) ≤ (v.2 : ℤ) - (c : ℤ) ∧ (v.2 : ℤ) - (c : ℤ) ≤ rad := by
    omega
  have s1 : ((v.1 : ℤ) - (r : ℤ)) ^ 2 ≤ ((rad : ℤ)) ^ 2 := sq_le_sq' h1.1 h1.2
  have s2 : ((v.2 : ℤ) - (c : ℤ)) ^ 2 ≤ ((rad : ℤ)) ^ 2 := sq_le_sq' h2.1 h2.2
  rw [cellD2]
  linarith

theorem nuLoop_cons (blocked : ℕ → ℕ → Bool) (H W r c rad : ℕ) (rads : List ℕ)
    (st : Option (ℕ × ℕ) × ℤ) :
    nuLoop blocked H W r c (rad :: rads) st =
      match ((windowCells r c rad H W).foldl (scanCell blocked r c) st).1 with
      | some b => some b
      | none =>
          nuLoop blocked H W r c rads
            ((windowCells r c rad H W).foldl (scanCell blocked r c) st) := rfl

theorem nuLoop_none_spec (blocked : ℕ → ℕ → Bool) (H W r c : ℕ) (B : ℤ)
    (L : List ℕ) (h : nuLoop blocked H W r c L (none, B) = none) :
    ∀ rad ∈ L, ∀ w ∈ windowCells r c rad H W,
      blocked w.1 w.2 = false → ¬(cellD2 r c w < B) := by
  induction L with
  | nil => intro rad hrad; cases hrad
  | cons rad rads ih =>
    rw [nuLoop_cons] at h
    cases hst : ((windowCells r c rad H W).foldl (scanCell blocked r c)
        (none, B)).1 with
    | some b => rw [hst] at h; cases h
    | none =>
      rw [hst] at h
      obtain ⟨heq, hall⟩ := scanFold_none blocked r c _ _ hst
      rw [heq] at h
      intro rad' hrad'
      rcases List.mem_cons.mp hrad' with rfl | hmem
      · exact hall
      · exact ih h rad' hmem

theorem nuLoop_some_spec (blocked : ℕ → ℕ → Bool) (H W r c : ℕ) (B : ℤ)
    (L : List ℕ) (res : ℕ × ℕ)
    (h : nuLoop blocked H W r c L (none, B) = some res) :
    ∃ L₁ rad L₂, L = L₁ ++ rad :: L₂ ∧
      (∀ rad' ∈ L₁, ∀ w ∈ windowCells r c rad' H W,
        blocked w.1 w.2 = false → ¬(cellD2 r c w < B)) ∧
      res ∈ windowCells r c rad H W ∧ blocked res.1 res.2 = false ∧
      ∀ w ∈ windowCells r c rad H W, blocked w.1 w.2 = false →
        cellD2 r c res ≤ cellD2 r c w := by
  induction L with
  | nil => cases h
  | cons rad rads ih =>
    rw [nuLoop_cons] at h
    cases hst : ((windowCells r c rad H W).foldl (scanCell blocked r c)
        (none, B)).1 with
    | some b =>
      rw [hst] at h
      obtain rfl : b = res := by simpa using h
      rcases scanFold_track blocked r c _ _ _ hst with ⟨h1, _⟩ | ⟨hmem, hub, hsnd⟩
      · cases h1
      · refine ⟨[], rad, rads, rfl, by simp, hmem, hub, ?_⟩
        intro w hw hwub
        have := scanFold_min blocked r c (windowCells r c rad H W) (none, B) w hw hwub
        rw [hsnd] at this
        exact this
    | none =>
      rw [hst] at h
      obtain ⟨heq, hall⟩ := scanFold_none blocked r c _ _ hst
      rw [heq] at h
      obtain ⟨L₁, rad', L₂, hL, hbefore, hres⟩ := ih h
      refine ⟨rad :: L₁, rad', L₂, by rw [hL]; rfl, ?_, hres⟩
      intro rad'' hrad''
      rcases List.mem_cons.mp hrad'' with rfl | hmem
      · exact hall
      · exact hbefore rad'' hmem

theorem nearest_unblocked_found (rc : ℕ × ℕ) (blocked : ℕ → ℕ → Bool)
    (H W maxR rad : ℕ) (hb : blocked rc.1 rc.2 = true)
    (hbig : ((maxR : ℤ)) ^ 2 * 2 < 10 ^ 18) (h1 : 1 ≤ rad) (h2 : rad ≤ maxR)
    (hex : ∃ w ∈ windowCells rc.1 rc.2 rad H W, blocked w.1 w.2 = false)
    (hfirst : ∀ rad', 1 ≤ rad' → rad' < rad →
      ∀ w ∈ windowCells rc.1 rc.2 rad' H W, blocked w.1 w.2 = true) :
    nearest_unblocked rc blocked H W maxR ∈ windowCells rc.1 rc.2 rad H W ∧
      blocked (nearest_unblocked rc blocked H W maxR).1
        (nearest_unblocked rc blocked H W maxR).2 = false ∧
      ∀ w ∈ windowCells rc.1 rc.2 rad H W, blocked w.1 w.2 = false →
        cellD2 rc.1 rc.2 (nearest_unblocked rc blocked H W maxR) ≤
          cellD2 rc.1 rc.2 w := by
  obtain ⟨w0, hw0mem, hw0ub⟩ := hex
  have hradmem : rad ∈ List.range' 1 maxR := by
    rw [List.mem_range'_1]
    omega
  have hradbig : ((rad : ℤ)) ^ 2 * 2 < 10 ^ 18 := by
    have : ((rad : ℤ)) ^ 2 ≤ ((maxR : ℤ)) ^ 2 :=
      pow_le_pow_left₀ (by positivity) (by exact_mod_cast h2) 2
    linarith
  have hd2w0 : cellD2 rc.1 rc.2 w0 < 10 ^ 18 :=
    cellD2_lt_big rc.1 rc.2 rad H W hradbig w0 hw0mem
  rw [nearest_unblocked, if_neg (by simp [hb])]
  cases hloop : nuLoop blocked H W rc.1 rc.2 (List.range' 1 maxR)
      (none, 10 ^ 18) with
  | none =>
    exact absurd hd2w0
      (nuLoop_none_spec blocked H W rc.1 rc.2 _ _ hloop rad hradmem w0 hw0mem hw0ub)
  | some res =>
    obtain ⟨L₁, rad', L₂, hL, hbefore, hresmem, hresub, hmin⟩ :=
      nuLoop_some_spec blocked H W rc.1 rc.2 _ _ res hloop
    have hradeq : rad' = rad := by
      have hradin : rad ∈ L₁ ++ rad' :: L₂ := by rw [← hL]; exact hradmem
      have hpw : (L₁ ++ rad' :: L₂).Pairwise (· < ·) := by
        rw [← hL]; exact List.pairwise_lt_range' 1 maxR
      have hrad'mem : rad' ∈ List.range' 1 maxR := by
        rw [hL]
        exact List.mem_append_right _ (List.mem_cons_self ..)
      have hrad'ge : 1 ≤ rad' := (List.mem_range'_1.mp hrad'mem).1
      rcases List.mem_append.mp hradin with hin1 | hin2
      · exact absurd hd2w0 (hbefore rad hin1 w0 hw0mem hw0ub)
      · rcases List.mem_cons.mp hin2 with rfl | hin3
        · rfl
        · exfalso
          have hlt : rad' < rad :=
            (List.pairwise_cons.mp (List.pairwise_append.mp hpw).2.1).1 rad hin3
          exact absurd hresub
            (by simp [hfirst rad' hrad'ge hlt res hresmem])
    subst hradeq
    exact ⟨hresmem, hresub, hmin⟩

/-- C8: `nearest_unblocked` (i) returns an unblocked input cell unchanged;
(ii) on a blocked input it returns, at the first ring radius whose
border-clipped square window contains an unblocked cell, an unblocked cell of
that window of minimum squared Euclidean distance from the input; (iii) when
the radius-`maxRadius` window contains no unblocked cell it returns the
original cell; and (iv) a blocked cell with exactly one unblocked neighbour at
Chebyshev distance 1 yields that neighbour.  (Parts (ii) and (iv) assume
`2 * maxRadius² < 10¹⁸`, the Python `best_d2` initialiser, which every real
call satisfies — `max_radius` defaults to 25.) -/
theorem nearest_unblocked_spec :
    (∀ (rc : ℕ × ℕ) (blocked : ℕ → ℕ → Bool) (H W maxR : ℕ),
      blocked rc.1 rc.2 = false → nearest_unblocked rc blocked H W maxR = rc) ∧
    (∀ (rc : ℕ × ℕ) (blocked : ℕ → ℕ → Bool) (H W maxR rad : ℕ),
      blocked rc.1 rc.2 = true → ((maxR : ℤ)) ^ 2 * 2 < 10 ^ 18 →
      1 ≤ rad → rad ≤ maxR →
      (∃ w ∈ windowCells rc.1 rc.2 rad H W, blocked w.1 w.2 = false) →
      (∀ rad', 1 ≤ rad' → rad' < rad →
        ∀ w ∈ windowCells rc.1 rc.2 rad' H W, blocked w.1 w.2 = true) →
      nearest_unblocked rc blocked H W maxR ∈ windowCells rc.1 rc.2 rad H W ∧
        blocked (nearest_unblocked rc blocked H W maxR).1
          (nearest_unblocked rc blocked H W maxR).2 = false ∧
        ∀ w ∈ windowCells rc.1 rc.2 rad H W, blocked w.1 w.2 = false →
          cellD2 rc.1 rc.2 (nearest_unblocked rc blocked H W maxR) ≤
            cellD2 rc.1 rc.2 w) ∧
    (∀ (rc : ℕ × ℕ) (blocked : ℕ → ℕ → Bool) (H W maxR : ℕ),
      (∀ w ∈ windowCells rc.1 rc.2 maxR H W, blocked w.1 w.2 = true) →
      nearest_unblocked rc blocked H W maxR = rc) ∧
    (∀ (rc v : ℕ × ℕ) (blocked : ℕ → ℕ → Bool) (H W maxR : ℕ),
      blocked rc.1 rc.2 = true → 1 ≤ maxR →
      ((maxR : ℤ)) ^ 2 * 2 < 10 ^ 18 →
      v ∈ windowCells rc.1 rc.2 1 H W → blocked v.1 v.2 = false →
      (∀ w ∈ windowCells rc.1 rc.2 1 H W, w ≠ v → blocked w.1 w.2 = true) →
      nearest_unblocked rc blocked H W maxR = v) := by
  refine ⟨?_, ?_, ?_, ?_⟩
  · intro rc blocked H W maxR hub
    rw [nearest_unblocked, if_pos hub]
  · intro rc blocked H W maxR rad hb hbig h1 h2 hex hfirst
    exact nearest_unblocked_found rc blocked H W maxR rad hb hbig h1 h2 hex hfirst
  · intro rc blocked H W maxR hall
    by_cases hub : blocked rc.1 rc.2 = false
    · rw [nearest_unblocked, if_pos hub]
    · rw [nearest_unblocked, if_neg hub]
      cases hloop : nuLoop blocked H W rc.1 rc.2 (List.range' 1 maxR)
          (none, 10 ^ 18) with
      | none => rfl
      | some res =>
        obtain ⟨L₁, rad', L₂, hL, _, hresmem, hresub, _⟩ :=
          nuLoop_some_spec blocked H W rc.1 rc.2 _ _ res hloop
        have hrad'mem : rad' ∈ List.range' 1 maxR := by
          rw [hL]
          exact List.mem_append_right _ (List.mem_cons_self ..)
        have hle : rad' ≤ maxR := by
          have := List.mem_range'_1.mp hrad'mem
          omega
        have := hall res
          (windowCells_subset rc.1 rc.2 rad' maxR H W hle res hresmem)
        rw [hresub] at this
        cases this
  · intro rc v blocked H W maxR hb h1 hbig hvmem hvub huniq
    obtain ⟨hresmem, hresub, _⟩ :=
      nearest_unblocked_found rc blocked H W maxR 1 hb hbig le_rfl h1
        ⟨v, hvmem, hvub⟩ (by omega)
    by_contra hne
    have := huniq _ hresmem hne
    rw [hresub] at this
    cases this

theorem nearest_unblocked_spec_witness :
    nearest_unblocked (0, 0)
        (fun r c => if r = 0 ∧ c = 1 then false else true) 2 2 2 = (0, 1) :=
  nearest_unblocked_spec.2.2.2 (0, 0) (0, 1)
    (fun r c => if r = 0 ∧ c = 1 then false else true) 2 2 2
    (by decide) (by decide) (by decide) (by decide) (by decide) (by decide)

theorem alookup_mem_keys [DecidableEq V] (l : List (V × β)) (x : V) (o : β)
    (h : alookup l x = some o) : x ∈ l.map Prod.fst := by
  induction l with
  | nil => cases h
  | cons p rest ih =>
    rw [alookup] at h
    by_cases hx : x = p.1
    · simp [hx]
    · rw [if_neg hx] at h
      exact List.mem_cons_of_mem _ (ih h)

theorem nodup_subset_length (l l' : List α) (h : l.Nodup)
    (hs : ∀ x ∈ l, x ∈ l') : l.length ≤ l'.length := by
  classical
  calc l.length = l.toFinset.card := (List.toFinset_card_of_nodup h).symm
  _ ≤ l'.toFinset.card := Finset.card_le_card (fun x hx => by
      simp only [List.mem_toFinset] at hx ⊢
      exact hs x hx)
  _ ≤ l'.length := l'.toFinset_card_le

theorem popMinAux_fst_mem [DecidableEq C] (M : NumOps C) (e : Entry C V)
    (l : List (Entry C V)) : (popMinAux M e l).1 ∈ e :: l := by
  induction l generalizing e with
  | nil => simp [popMinAux]
  | cons x rest ih =>
    rw [popMinAux]
    by_cases hlt : entryLt M x e
    · rw [if_pos hlt]
      have := ih x
      simp only [List.mem_cons] at this ⊢
      tauto
    · rw [if_neg hlt]
      have := ih e
      simp only [List.mem_cons] at this ⊢
      tauto

theorem popMinAux_snd_subset [DecidableEq C] (M : NumOps C) (e : Entry C V)
    (l : List (Entry C V)) : ∀ x ∈ (popMinAux M e l).2, x ∈ e :: l := by
  induction l generalizing e with
  | nil => simp [popMinAux]
  | cons y rest ih =>
    rw [popMinAux]
    by_cases hlt : entryLt M y e
    · rw [if_pos hlt]
      intro x hx
      simp only [List.mem_cons] at hx ⊢
      rcases hx with rfl | hx2
      · tauto
      · have := ih y x hx2
        simp only [List.mem_cons] at this
        tauto
    · rw [if_neg hlt]
      intro x hx
      simp only [List.mem_cons] at hx ⊢
      rcases hx with rfl | hx2
      · tauto
      · have := ih e x hx2
        simp only [List.mem_cons] at this
        tauto

theorem mem_insEntry [DecidableEq C] (M : NumOps C) (e x : Entry C V)
    (l : List (Entry C V)) : x ∈ insEntry M e l ↔ x = e ∨ x ∈ l := by
  induction l with
  | nil => simp [insEntry]
  | cons y rest ih =>
    rw [insEntry]
    by_cases hlt : entryLt M y e
    · rw [if_pos hlt]
      simp only [List.mem_cons, ih]
      tauto
    · rw [if_neg hlt]
      simp only [List.mem_cons]

theorem mem_sortEntries [DecidableEq C] (M : NumOps C) (x : Entry C V)
    (l : List (Entry C V)) : x ∈ sortEntries M l ↔ x ∈ l := by
  induction l with
  | nil => simp [sortEntries]
  | cons y rest ih =>
    rw [sortEntries, mem_insEntry]
    simp only [List.mem_cons, ih]

theorem PChain.ne_nil [DecidableEq V] {parent : List (V × Option V)}
    {start x : V} {p : List V} (h : PChain parent start x p) : p ≠ [] := by
  induction h with
  | base => simp
  | step h1 h2 ih => simp

theorem PChain.head_start [DecidableEq V] {parent : List (V × Option V)}
    {start x : V} {p : List V} (h : PChain parent start x p) :
    p.head? = some start := by
  induction h with
  | base => rfl
  | step h1 h2 ih =>
    rename_i u v p'
    cases p' with
    | nil => exact absurd rfl h1.ne_nil
    | cons a t => simpa using ih

theorem PChain.last_self [DecidableEq V] {parent : List (V × Option V)}
    {start x : V} {p : List V} (h : PChain parent start x p) :
    p.getLast? = some x := by
  cases h with
  | base => rfl
  | step h1 h2 => exact List.getLast?_concat _

theorem ChainOK_concat (nbrs : V → List V) (cost : V → V → Option C)
    (p : List V) (v : V) (h : ChainOK nbrs cost p)
    (hlink : ∀ a, p.getLast? = some a → v ∈ nbrs a ∧ cost a v ≠ none) :
    ChainOK nbrs cost (p ++ [v]) := by
  induction p with
  | nil => exact trivial
  | cons a rest ih =>
    cases rest with
    | nil =>
      exact ⟨hlink a rfl, trivial⟩
    | cons b rest' =>
      obtain ⟨hab, htail⟩ := h
      exact ⟨hab, ih htail (fun a' ha' => hlink a' ha')⟩

theorem PChain.chainOK [DecidableEq V] {parent : List (V × Option V)}
    {start x : V} {p : List V} (nbrs : V → List V) (cost : V → V → Option C)
    (hedge : ∀ v u, alookup parent v = some (some u) →
      v ∈ nbrs u ∧ cost u v ≠ none)
    (h : PChain parent start x p) : ChainOK nbrs cost p := by
  induction h with
  | base => exact trivial
  | step h1 h2 ih =>
    rename_i u v p'
    refine ChainOK_concat nbrs cost p' v ih ?_
    intro a ha
    rw [h1.last_self] at ha
    cases ha
    exact hedge v u h2

theorem reconstructAux_chain [DecidableEq V] (parent : List (V × Option V))
    (order : List V) (start : V)
    (hnone : ∀ v, alookup parent v = some none → v = start)
    (hedgeOrd : ∀ v u, alookup parent v = some (some u) → u ∈ order)
    (hlt : ∀ v u, alookup parent v = some (some u) → v ∈ order →
      order.indexOf u < order.indexOf v)
    (hOrdKeyed : ∀ u ∈ order, ∃ o, alookup parent u = some o) :
    ∀ n (x : V), (∃ o, alookup parent x = some o) → chainRank order x < n →
      ∀ fuel, n ≤ fuel + 1 → ∀ acc,
        ∃ p, reconstructAux parent fuel x acc = p ++ acc ∧
          PChain parent start x p := by
  intro n
  induction n with
  | zero =>
    intro x _ h
    omega
  | succ n ih =>
    intro x hk hrank fuel hfuel acc
    obtain ⟨o, ho⟩ := hk
    cases o with
    | none =>
      have hx : x = start := hnone x ho
      rw [hx] at ho ⊢
      cases fuel with
      | zero => exact ⟨[start], rfl, PChain.base⟩
      | succ f =>
        refine ⟨[start], ?_, PChain.base⟩
        simp [reconstructAux, pstep, ho]
    | some w =>
      have hw : w ∈ order := hedgeOrd x w ho
      have hrankw : chainRank order w < chainRank order x := by
        rw [chainRank, chainRank]
        by_cases hx : x ∈ order
        · rw [if_pos hw, if_pos hx]
          exact hlt x w ho hx
        · rw [if_pos hw, if_neg hx]
          exact List.indexOf_lt_length.mpr hw
      cases fuel with
      | zero => omega
      | succ f =>
        have hstep : reconstructAux parent (f + 1) x acc =
            reconstructAux parent f w (x :: acc) := by
          simp [reconstructAux, pstep, ho]
        obtain ⟨p, hp, hchain⟩ :=
          ih w (hOrdKeyed w hw) (by omega) f (by omega) (x :: acc)
        refine ⟨p ++ [x], ?_, PChain.step hchain ho⟩
        rw [hstep, hp]
        simp

theorem reconstruct_chain [DecidableEq V] (parent : List (V × Option V))
    (order : List V) (start : V)
    (hnone : ∀ v, alookup parent v = some none → v = start)
    (hedgeOrd : ∀ v u, alookup parent v = some (some u) → u ∈ order)
    (hlt : ∀ v u, alookup parent v = some (some u) → v ∈ order →
      order.indexOf u < order.indexOf v)
    (hOrdKeyed : ∀ u ∈ order, ∃ o, alookup parent u = some o)
    (hnodup : order.Nodup) (x : V) (hkx : ∃ o, alookup parent x = some o) :
    PChain parent start x (reconstruct parent x) := by
  have hcnt : order.length ≤ parent.length := by
    have hsub : ∀ u ∈ order, u ∈ parent.map Prod.fst := fun u hu => by
      obtain ⟨o, ho⟩ := hOrdKeyed u hu
      exact alookup_mem_keys parent u o ho
    simpa using nodup_subset_length order (parent.map Prod.fst) hnodup hsub
  have hrle : chainRank order x ≤ order.length := by
    rw [chainRank]
    split
    · exact le_of_lt (List.indexOf_lt_length.mpr (by assumption))
    · exact le_refl _
  obtain ⟨p, hp, hchain⟩ :=
    reconstructAux_chain parent order start hnone hedgeOrd hlt hOrdKeyed
      (chainRank order x + 1) x hkx (by omega) (parent.length + 1)
      (by omega) []
  rw [reconstruct, hp]
  simpa using hchain

theorem reconstruct_path_ok [DecidableEq V] {nbrs : V → List V}
    {cost : V → V → Option C} {start goal : V} {st : AState C V}
    (inv : PInv nbrs cost start goal st) (x : V)
    (hk : ∃ o, alookup st.parent x = some o) :
    (reconstruct st.parent x).head? = some start ∧
      (reconstruct st.parent x).getLast? = some x ∧
      ChainOK nbrs cost (reconstruct st.parent x) := by
  have hchain : PChain st.parent start x (reconstruct st.parent x) :=
    reconstruct_chain st.parent st.order start inv.noneOnlyStart
      (fun v u h => (inv.bindEdge v u h).2.2) inv.bindLt inv.orderKeyed
      inv.orderNodup x hk
  exact ⟨hchain.head_start, hchain.last_self,
    hchain.chainOK nbrs cost
      (fun v u h => ⟨(inv.bindEdge v u h).1, (inv.bindEdge v u h).2.1⟩)⟩

theorem alookup_cons_eq [DecidableEq V] (l : List (V × β)) (k : V) (b : β) :
    alookup ((k, b) :: l) k = some b := by
  simp [alookup]

theorem alookup_cons_ne [DecidableEq V] (l : List (V × β)) (k x : V) (b : β)
    (h : x ≠ k) : alookup ((k, b) :: l) x = alookup l x := by
  simp [alookup, h]

theorem keyed_mono [DecidableEq V] (l : List (V × Option V)) (k x : V)
    (b : Option V) (h : ∃ o, alookup l x = some o) :
    ∃ o, alookup ((k, b) :: l) x = some o := by
  by_cases hx : x = k
  · subst hx
    exact ⟨b, alookup_cons_eq l x b⟩
  · rw [alookup_cons_ne l k x b hx]
    exact h

theorem relaxStep_order [DecidableEq C] [DecidableEq V] (M : NumOps C)
    (goal : V) (cost : V → V → Option C) (hf : V → C) (wt : C) (u : V)
    (gu : C) (st : AState C V) (v : V) :
    (relaxStep M goal cost hf wt u gu st v).order = st.order := by
  rw [relaxStep]
  cases cost u v with
  | none => rfl
  | some c =>
    dsimp only
    by_cases hvo : v ∈ st.order
    · rw [if_pos hvo]
    · rw [if_neg hvo]
      by_cases hdr : (match alookup st.g v with
        | none => true
        | some old => M.blt (M.add gu c) (M.subTol old)) = true
      · rw [if_pos hdr]
      · rw [if_neg hdr]

theorem relaxNbrs_order [DecidableEq C] [DecidableEq V] (M : NumOps C)
    (goal : V) (cost : V → V → Option C) (hf : V → C) (wt : C) (u : V)
    (gu : C) (vs : List V) (st : AState C V) :
    (relaxNbrs M goal cost hf wt u gu vs st).order = st.order := by
  induction vs generalizing st with
  | nil => rfl
  | cons v rest ih =>
    rw [relaxNbrs, List.foldl_cons]
    rw [show List.foldl (relaxStep M goal cost hf wt u gu)
      (relaxStep M goal cost hf wt u gu st v) rest =
      relaxNbrs M goal cost hf wt u gu rest
        (relaxStep M goal cost hf wt u gu st v) from rfl]
    rw [ih, relaxStep_order]

theorem PInv.popped [DecidableEq C] [DecidableEq V] {M : NumOps C}
    {nbrs : V → List V} {cost : V → V → Option C} {start goal : V}
    {st : AState C V} (inv : PInv nbrs cost start goal st)
    (e0 : Entry C V) (rest : List (Entry C V)) (hO : st.openh = e0 :: rest) :
    PInv nbrs cost start goal { st with openh := (popMinAux M e0 rest).2 } := by
  refine ⟨inv.startBind, inv.noneOnlyStart, inv.bindEdge, inv.bindLt,
    inv.orderKeyed, ?_, inv.bestOK, inv.orderNodup, inv.startOrder⟩
  intro e he
  refine inv.heapKeyed e ?_
  rw [hO]
  exact popMinAux_snd_subset M e0 rest e he

theorem PInv.relaxStep_pres [DecidableEq C] [DecidableEq V] {M : NumOps C}
    {nbrs : V → List V} {cost : V → V → Option C} {start goal : V}
    {st : AState C V} (inv : PInv nbrs cost start goal st)
    (hf : V → C) (wt : C) (u : V) (gu : C) (v : V)
    (hu : u ∈ st.order) (hstart : start ∈ st.order) (hv : v ∈ nbrs u) :
    PInv nbrs cost start goal (relaxStep M goal cost hf wt u gu st v) := by
  rw [relaxStep]
  cases hc : cost u v with
  | none => exact inv
  | some c =>
    dsimp only
    by_cases hvo : v ∈ st.order
    · rw [if_pos hvo]
      exact inv
    · rw [if_neg hvo]
      by_cases hdr : (match alookup st.g v with
        | none => true
        | some old => M.blt (M.add gu c) (M.subTol old)) = true
      · rw [if_pos hdr]
        have hvstart : v ≠ start := fun h => hvo (h ▸ hstart)
        refine ⟨?_, ?_, ?_, ?_, ?_, ?_, ?_, inv.orderNodup, Or.inl hstart⟩
        · rw [alookup_cons_ne _ _ _ _ (Ne.symm (Ne.symm hvstart)).symm]
          exact inv.startBind
        · intro x hx
          by_cases hxv : x = v
          · subst hxv
            rw [alookup_cons_eq] at hx
            cases hx
          · rw [alookup_cons_ne _ _ _ _ hxv] at hx
            exact inv.noneOnlyStart x hx
        · intro x w hx
          by_cases hxv : x = v
          · subst hxv
            rw [alookup_cons_eq] at hx
            cases hx
            exact ⟨hv, by simp [hc], hu⟩
          · rw [alookup_cons_ne _ _ _ _ hxv] at hx
            exact inv.bindEdge x w hx
        · intro x w hx hxo
          by_cases hxv : x = v
          · subst hxv
            exact absurd hxo hvo
          · rw [alookup_cons_ne _ _ _ _ hxv] at hx
            exact inv.bindLt x w hx hxo
        · intro x hx
          exact keyed_mono _ _ _ _ (inv.orderKeyed x hx)
        · intro e he
          simp only [List.mem_append, List.mem_singleton] at he
          rcases he with he | rfl
          · exact keyed_mono _ _ _ _ (inv.heapKeyed e he)
          · exact ⟨some u, alookup_cons_eq _ _ _⟩
        · dsimp only
          by_cases hvg : v = goal
          · subst hvg
            rw [if_pos rfl]
            cases hbc : st.bestCost with
            | none =>
              exact Or.inr ⟨rfl, ⟨some u, alookup_cons_eq _ _ _⟩, _, rfl⟩
            | some b =>
              dsimp only
              by_cases hblt : M.blt (M.add gu c) (M.subTol b) = true
              · rw [if_pos hblt]
                exact Or.inr ⟨rfl, ⟨some u, alookup_cons_eq _ _ _⟩, _, rfl⟩
              · rw [if_neg (by simpa using hblt)]
                rcases inv.bestOK with ⟨h1, h2⟩ | ⟨h1, h2, h3⟩
                · rw [hbc] at h2
                  cases h2
                · exact Or.inr ⟨h1, keyed_mono _ _ _ _ h2, b, rfl⟩
          · rw [if_neg hvg]
            rcases inv.bestOK with ⟨h1, h2⟩ | ⟨h1, h2, h3⟩
            · exact Or.inl ⟨h1, h2⟩
            · exact Or.inr ⟨h1, keyed_mono _ _ _ _ h2, h3⟩
      · rw [if_neg hdr]
        exact inv

theorem PInv.relaxNbrs_pres [DecidableEq C] [DecidableEq V] {M : NumOps C}
    {nbrs : V → List V} {cost : V → V → Option C} {start goal : V}
    (hf : V → C) (wt : C) (u : V) (gu : C) (vs : List V) :
    ∀ (st : AState C V), PInv nbrs cost start goal st →
      u ∈ st.order → start ∈ st.order → (∀ v ∈ vs, v ∈ nbrs u) →
      PInv nbrs cost start goal (relaxNbrs M goal cost hf wt u gu vs st) := by
  induction vs with
  | nil => intro st inv _ _ _; exact inv
  | cons v rest ih =>
    intro st inv hu hstart hsub
    rw [relaxNbrs, List.foldl_cons]
    rw [show List.foldl (relaxStep M goal cost hf wt u gu)
      (relaxStep M goal cost hf wt u gu st v) rest =
      relaxNbrs M goal cost hf wt u gu rest
        (relaxStep M goal cost hf wt u gu st v) from rfl]
    refine ih _ ?_ ?_ ?_ ?_
    · exact inv.relaxStep_pres hf wt u gu v hu hstart
        (hsub v (List.mem_cons_self ..))
    · rw [relaxStep_order]; exact hu
    · rw [relaxStep_order]; exact hstart
    · exact fun w hw => hsub w (List.mem_cons_of_mem _ hw)

theorem PInv.close_pres [DecidableEq C] [DecidableEq V]
    {nbrs : V → List V} {cost : V → V → Option C} {start goal : V}
    {st : AState C V} (inv : PInv nbrs cost start goal st) (u : V)
    (hk : ∃ o, alookup st.parent u = some o) (hno : u ∉ st.order) :
    PInv nbrs cost start goal (closeNode st u) ∧
      start ∈ (closeNode st u).order := by
  have hstart2 : start ∈ st.order ++ [u] := by
    rcases inv.startOrder with h | h
    · exact List.mem_append_left _ h
    · obtain ⟨o, ho⟩ := hk
      rw [h] at ho
      have : u = start := by
        rw [alookup] at ho
        by_cases hus : u = start
        · exact hus
        · rw [if_neg hus] at ho
          cases ho
      subst this
      exact List.mem_append_right _ (List.mem_singleton.mpr rfl)
  refine ⟨⟨inv.startBind, inv.noneOnlyStart, ?_, ?_, ?_, inv.heapKeyed,
    inv.bestOK, ?_, Or.inl hstart2⟩, hstart2⟩
  · intro v w hb
    obtain ⟨h1, h2, h3⟩ := inv.bindEdge v w hb
    exact ⟨h1, h2, List.mem_append_left _ h3⟩
  · intro v w hb hvo
    rw [closeNode] at hvo ⊢
    simp only [List.mem_append, List.mem_singleton] at hvo
    have hworder : w ∈ st.order := (inv.bindEdge v w hb).2.2
    have hwidx : (st.order ++ [u]).indexOf w = st.order.indexOf w :=
      List.indexOf_append_of_mem hworder
    rcases hvo with hvo | rfl
    · rw [hwidx, List.indexOf_append_of_mem hvo]
      exact inv.bindLt v w hb hvo
    · rw [hwidx, List.indexOf_append_of_not_mem hno]
      have : st.order.indexOf w < st.order.length :=
        List.indexOf_lt_length.mpr hworder
      simpa using this
  · intro v hvo
    rw [closeNode] at hvo
    simp only [List.mem_append, List.mem_singleton] at hvo
    rcases hvo with hvo | rfl
    · exact inv.orderKeyed v hvo
    · exact hk
  · rw [closeNode]
    simp only [List.nodup_append, List.nodup_singleton]
    exact ⟨inv.orderNodup, trivial, by
      intro a ha hau
      simp only [List.mem_singleton] at hau
      subst hau
      exact hno ha⟩

theorem PInv.beam_pres [DecidableEq C] [DecidableEq V] {M : NumOps C}
    {nbrs : V → List V} {cost : V → V → Option C} {start goal : V}
    {st : AState C V} (inv : PInv nbrs cost start goal st) (P : AParams C) :
    PInv nbrs cost start goal (beamPrune M P st) := by
  rw [beamPrune]
  cases P.beamWidth with
  | none => exact inv
  | some k =>
    dsimp only
    by_cases hk : k < st.openh.length
    · rw [if_pos hk]
      refine ⟨inv.startBind, inv.noneOnlyStart, inv.bindEdge, inv.bindLt,
        inv.orderKeyed, ?_, inv.bestOK, inv.orderNodup, inv.startOrder⟩
      intro e he
      have : e ∈ sortEntries M st.openh := List.mem_of_mem_take he
      exact inv.heapKeyed e ((mem_sortEntries M e st.openh).mp this)
    · rw [if_neg hk]
      exact inv

theorem initState_PInv [DecidableEq C] [DecidableEq V] (M : NumOps C)
    (nbrs : V → List V) (cost : V → V → Option C) (start goal : V)
    (hf : V → C) (wt : C) :
    PInv nbrs cost start goal (initState M start hf wt) := by
  refine ⟨by simp [initState, alookup], ?_, ?_, ?_, ?_, ?_, ?_, ?_, ?_⟩
  · intro v hv
    rw [initState] at hv
    rw [alookup] at hv
    by_cases hvs : v = start
    · exact hvs
    · rw [if_neg hvs] at hv
      cases hv
  · intro v u hb
    rw [initState] at hb
    rw [alookup] at hb
    by_cases hvs : v = start
    · rw [if_pos hvs] at hb
      cases hb
    · rw [if_neg hvs] at hb
      cases hb
  · intro v u hb hvo
    rw [initState] at hvo
    cases hvo
  · intro v hv
    rw [initState] at hv
    cases hv
  · intro e he
    rw [initState] at he
    simp only [List.mem_singleton] at he
    subst he
    exact ⟨none, by simp [initState, alookup]⟩
  · exact Or.inl ⟨rfl, rfl⟩
  · rw [initState]
    exact List.nodup_nil
  · exact Or.inr rfl

theorem bestResult_paths [DecidableEq V] {nbrs : V → List V}
    {cost : V → V → Option C} {start goal : V} {st : AState C V}
    (inv : PInv nbrs cost start goal st) :
    ∀ p, (bestResult st).path = some p →
      p.head? = some start ∧ p.getLast? = some goal ∧ ChainOK nbrs cost p := by
  intro p hp
  rw [bestResult] at hp
  cases hbn : st.bestNode with
  | none =>
    rw [hbn] at hp
    cases hp
  | some n =>
    rw [hbn] at hp
    dsimp only at hp
    rcases inv.bestOK with ⟨h1, _⟩ | ⟨h1, hk, _⟩
    · rw [hbn] at h1
      cases h1
    · rw [hbn] at h1
      injection h1 with h1
      subst h1
      injection hp with hp
      subst hp
      exact reconstruct_path_ok inv n hk

theorem epsExitCond_none (M : NumOps C) (P : AParams C) (f : C) :
    epsExitCond M P none f = false := by
  show (match P.epsilon, (none : Option C) with
    | some eps, some b => M.ble b (M.mul (M.add M.one eps) f)
    | _, _ => false) = false
  cases hP : P.epsilon <;> rfl

theorem epsExitCond_some (M : NumOps C) (P : AParams C) (bc : Option C)
    (f : C) (h : epsExitCond M P bc f = true) : ∃ b, bc = some b := by
  cases hbc : bc with
  | some b => exact ⟨b, rfl⟩
  | none =>
    rw [hbc, epsExitCond_none] at h
    exact Bool.noConfusion h

theorem astarLoop_paths [DecidableEq C] [DecidableEq V] (M : NumOps C)
    (start goal : V) (nbrs : V → List V) (cost : V → V → Option C)
    (hf : V → C) (P : AParams C) :
    ∀ (fuel iter : ℕ) (st : AState C V) (res : AResult C V),
      PInv nbrs cost start goal st →
      astarLoop M goal nbrs cost hf P fuel iter st = some res →
      ∀ p, res.path = some p →
        p.head? = some start ∧ p.getLast? = some goal ∧
          ChainOK nbrs cost p := by
  intro fuel
  induction fuel with
  | zero =>
    intro iter st res _ h
    cases h
  | succ f ih =>
    intro iter st res inv h
    rw [astarLoop] at h
    cases hO : st.openh with
    | nil =>
      rw [hO] at h
      injection h with h
      subst h
      exact bestResult_paths inv
    | cons e0 rest =>
      rw [hO] at h
      dsimp only at h
      by_cases ht : P.maxTime iter
      · rw [if_pos ht] at h
        injection h with h
        subst h
        exact bestResult_paths inv
      · rw [if_neg ht] at h
        have hukeyed : ∃ o,
            alookup st.parent (popMinAux M e0 rest).1.node = some o := by
          refine inv.heapKeyed _ ?_
          rw [hO]
          exact popMinAux_fst_mem M e0 rest
        by_cases heps :
            epsExitCond M P st.bestCost (popMinAux M e0 rest).1.f = true
        · rw [if_pos heps] at h
          injection h with h
          subst h
          intro p hp
          dsimp only at hp
          obtain ⟨b, hb⟩ := epsExitCond_some M P _ _ heps
          rcases inv.bestOK with ⟨_, h2⟩ | ⟨h1, hk, _⟩
          · rw [hb] at h2
            cases h2
          · rw [h1] at hp
            dsimp only [Option.getD] at hp
            injection hp with hp
            subst hp
            exact reconstruct_path_ok inv goal hk
        · rw [if_neg heps] at h
          by_cases hcl : (popMinAux M e0 rest).1.node ∈ st.order
          · rw [if_pos hcl] at h
            exact ih (iter + 1) _ res (inv.popped e0 rest hO) h
          · rw [if_neg hcl] at h
            have inv1 : PInv nbrs cost start goal
                { st with openh := (popMinAux M e0 rest).2 } :=
              inv.popped e0 rest hO
            obtain ⟨inv2, hstart2⟩ :=
              inv1.close_pres (popMinAux M e0 rest).1.node hukeyed hcl
            by_cases hcap : capCond P
                (closeNode { st with openh := (popMinAux M e0 rest).2 }
                  (popMinAux M e0 rest).1.node).expansions = true
            · rw [if_pos hcap] at h
              injection h with h
              subst h
              exact bestResult_paths inv2
            · rw [if_neg (by simpa using hcap)] at h
              by_cases hg : (popMinAux M e0 rest).1.node = goal
              · rw [if_pos hg] at h
                injection h with h
                subst h
                intro p hp
                dsimp only at hp
                injection hp with hp
                subst hp
                obtain ⟨h1, h2, h3⟩ :=
                  reconstruct_path_ok inv2 (popMinAux M e0 rest).1.node
                    hukeyed
                exact ⟨h1, by rw [h2, hg], h3⟩
              · rw [if_neg hg] at h
                refine ih (iter + 1) _ res ?_ h
                refine PInv.beam_pres ?_ P
                refine PInv.relaxNbrs_pres hf P.weight _ _ _ _ inv2 ?_
                  hstart2 (fun w hw => hw)
                rw [closeNode]
                exact List.mem_append_right _ (List.mem_singleton.mpr rfl)

theorem astar_paths_ok (C V : Type) [DecidableEq C] [DecidableEq V]
    (M : NumOps C) (start goal : V) (nbrs : V → List V)
    (cost : V → V → Option C) (hf : V → C) (P : AParams C) (fuel : ℕ)
    (res : AResult C V) (h : astar M start goal nbrs cost hf P fuel = some res)
    (p : List V) (hp : res.path = some p) :
    p.head? = some start ∧ p.getLast? = some goal ∧ ChainOK nbrs cost p := by
  rw [astar] at h
  by_cases hsg : start = goal
  · rw [if_pos hsg] at h
    injection h with h
    subst h
    dsimp only at hp
    injection hp with hp
    subst hp
    exact ⟨rfl, by rw [hsg]; rfl, trivial⟩
  · rw [if_neg hsg] at h
    exact astarLoop_paths M start goal nbrs cost hf P fuel 0 _ res
      (initState_PInv M nbrs cost start goal hf P.weight) h p hp

theorem ChainOK_blockedFree (nbrs : V → List V) (cost : V → V → Option C)
    (blk : V → Bool) (hblk : ∀ u v, blk v = true → cost u v = none) :
    ∀ p, ChainOK nbrs cost p → ChainBlockedFree blk p := by
  intro p
  induction p with
  | nil => intro _; trivial
  | cons a rest ih =>
    cases rest with
    | nil => intro _; trivial
    | cons b rest2 =>
      intro h
      obtain ⟨⟨h1, h2⟩, h3⟩ := h
      refine ⟨?_, ih h3⟩
      cases hb : blk b
      · rfl
      · exact absurd (hblk a b hb) h2

/-- C10: every path returned by `astar` (on any exit — optimal goal pop,
anytime budget-expiry return, or epsilon early exit) is well-formed: it is
non-empty, its first element is the start node, its last element is the goal
node, and every consecutive pair `(p_i, p_{i+1})` satisfies
`p_{i+1} ∈ neighbors_fn p_i` and `edge_cost_fn p_i p_{i+1} ≠ None` (the
cost and neighbour functions are pure, so "at the moment the parent link was
set" is the same as always). -/
theorem astar_path_wellformed (C V : Type) [DecidableEq C] [DecidableEq V]
    (M : NumOps C) (start goal : V) (nbrs : V → List V)
    (cost : V → V → Option C) (hf : V → C) (P : AParams C) (fuel : ℕ)
    (res : AResult C V) (h : astar M start goal nbrs cost hf P fuel = some res)
    (p : List V) (hp : res.path = some p) :
    p.head? = some start ∧ p.getLast? = some goal ∧ ChainOK nbrs cost p :=
  astar_paths_ok C V M start goal nbrs cost hf P fuel res h p hp

theorem astar_path_wellformed_witness :
    ([0, 1] : List ℕ).head? = some 0 ∧ ([0, 1] : List ℕ).getLast? = some 1 ∧
      ChainOK (fun _ => [1]) (fun _ _ => some (1 : ℚ)) [0, 1] :=
  astar_path_wellformed ℚ ℕ ratOps 0 1 (fun _ => [1]) (fun _ _ => some 1)
    (fun _ => 0) ⟨1, none, none, fun _ => false, none⟩ 10
    ⟨some [0, 1], some 1, 2, [0, 1]⟩ (by decide) [0, 1] rfl

/-- The 1×2 grid of the C2 counterexample: only cell `(0, 1)` is blocked. -/
def cexBlocked (r c : ℕ) : Bool := decide (r = 0 ∧ c = 1)

/-- The `WeightedCost().edge_cost_fn(layers)` edge costs of the C2
counterexample: default weights `w_dist=1, w_slope=3, w_rough=1` and the
default `block_penalty = inf`; all slopes and roughness are zero, and the
diagonal multiplier (irrelevant on a 1×2 grid, where no diagonal step
exists) is `3/2` in place of the irrational default `√2`.  The function
never returns Python `None`, so the wrapper always returns `some`. -/
def cexCost (u v : ℕ × ℕ) : Option QI :=
  some (WeightedCost_edge_cost 1 3 1 (qmk 3 2 (by decide)) QI.inf
    (fun _ _ => 0) (fun _ _ => 0) cexBlocked 1 1 2 u v)

/-- C2 as stated is false: with the `SlopeWeighted` model realised by
`WeightedCost` (whose `block_penalty` defaults to `float("inf")`, not the
`None` sentinel that `astar` skips), the search on a 1×2 grid whose goal
cell is blocked returns the path `[(0,0), (0,1)]` whose final edge has the
blocked cell `(0,1)` as destination (at reported cost `inf`). -/
theorem astar_blocked_counterexample :
    astar qiOps (0, 0) (0, 1) (fun u => neighbors_8 u 1 2) cexCost
        (fun _ => QI.fin 0) ⟨QI.fin 1, none, none, fun _ => false, none⟩ 10 =
      some ⟨some [(0, 0), (0, 1)], some QI.inf, 2, [(0, 0), (0, 1)]⟩ ∧
    cexBlocked 0 1 = true := by decide

/-- C2 (amended): for every cost model that maps blocked destinations to the
`None` sentinel — as `costs.edge_cost_factory` and the `PhysicalEnergy`
model do (second and third conjuncts) — no cell with `blocked = true` ever
appears as the destination of a consecutive pair of any returned path.
`WeightedCost` instead returns `float("inf")` for blocked destinations,
which `astar` does not skip, so for it the invariant fails (see the
counterexample) — though only on paths whose reported total cost is
infinite. -/
theorem astar_blocked_invariant :
    (∀ (C V : Type) [DecidableEq C] [DecidableEq V] (M : NumOps C)
        (start goal : V) (nbrs : V → List V) (cost : V → V → Option C)
        (hf : V → C) (P : AParams C) (fuel : ℕ) (res : AResult C V)
        (blk : V → Bool),
      (∀ u v, blk v = true → cost u v = none) →
      astar M start goal nbrs cost hf P fuel = some res →
      ∀ p, res.path = some p → ChainBlockedFree blk p) ∧
    (∀ (layers : Layers) (sw mg : ℝ) (ll : ℕ → ℕ → ℝ × ℝ) (u v : ℕ × ℕ),
      layers.blocked v.1 v.2 = true → edge_cost layers sw mg ll u v = none) ∧
    (∀ (layers : Layers) (P : EnergyParams) (u v : ℕ × ℕ),
      layers.blocked v.1 v.2 = true → move_energy_J u v layers P = none) := by
  refine ⟨?_, ?_, ?_⟩
  · intro C V _ _ M start goal nbrs cost hf P fuel res blk hblk h p hp
    exact ChainOK_blockedFree nbrs cost blk hblk p
      (astar_paths_ok C V M start goal nbrs cost hf P fuel res h p hp).2.2
  · intro layers sw mg ll u v hb
    rw [edge_cost, if_pos hb]
  · intro layers P u v hb
    rw [move_energy_J, if_pos hb]

theorem astar_blocked_invariant_witness :
    ChainBlockedFree (fun v => decide (v = 2)) ([0, 1] : List ℕ) :=
  astar_blocked_invariant.1 ℚ ℕ ratOps 0 1 (fun _ => [1])
    (fun u v => if v = 2 then none else some 1) (fun _ => 0)
    ⟨1, none, none, fun _ => false, none⟩ 10 ⟨some [0, 1], some 1, 2, [0, 1]⟩
    (fun v => decide (v = 2))
    (fun u v hv => by
      have hv2 : v = 2 := of_decide_eq_true hv
      subst hv2
      rfl)
    (by decide) [0, 1] rfl

/-- C4: for every unblocked destination, `move_energy_J` equals the claimed
clamped formula: `theta = atan(clamp(dh/d, minGrade, maxGrade))` and the net
draw is `max(0, (m*g*max(0,sin θ) + Crr*m*g*|cos θ|)*d/η + k_rough*rough(v)*d
- regenEff*m*g*max(0,-sin θ)*d)` (when `η` lies in `[1e-6, 1]`, where the
code's division-site clamp is the identity); the step distance is
direction-independent; and on flat terrain with zero roughness the cost of
every edge is `(Crr*m*g/η)*d`. -/
theorem move_energy_formula :
    (∀ (u v : ℕ × ℕ) (layers : Layers) (P : EnergyParams),
      layers.blocked v.1 v.2 = false →
      (1 / 1000000 : ℝ) ≤ P.eta → P.eta ≤ 1 → 0 < move_d_m u v P →
      move_theta u v layers P = Real.arctan (max P.min_grade (min P.max_grade
          ((layers.elevation_m v.1 v.2 - layers.elevation_m u.1 u.2) /
            move_d_m u v P))) ∧
      move_energy_J u v layers P = some (max 0
        ((P.mass_kg * P.g * max 0 (Real.sin (move_theta u v layers P)) +
            P.Crr * P.mass_kg * P.g * |Real.cos (move_theta u v layers P)|) *
            move_d_m u v P / P.eta +
          P.k_rough_J_per_m * layers.rough v.1 v.2 * move_d_m u v P -
          P.downhill_regen_eff * P.mass_kg * P.g *
            max 0 (-Real.sin (move_theta u v layers P)) *
            move_d_m u v P))) ∧
    (∀ (u v : ℕ × ℕ) (P : EnergyParams), move_d_m u v P = move_d_m v u P) ∧
    (∀ (u v : ℕ × ℕ) (layers : Layers) (P : EnergyParams),
      layers.blocked v.1 v.2 = false →
      layers.elevation_m v.1 v.2 = layers.elevation_m u.1 u.2 →
      layers.rough v.1 v.2 = 0 →
      P.min_grade ≤ 0 → 0 ≤ P.max_grade →
      0 ≤ P.Crr → 0 ≤ P.mass_kg → 0 ≤ P.g → 0 ≤ P.meters_per_cell →
      (1 / 1000000 : ℝ) ≤ P.eta → P.eta ≤ 1 →
      move_energy_J u v layers P =
        some (P.Crr * P.mass_kg * P.g / P.eta * move_d_m u v P)) := by
  refine ⟨?_, ?_, ?_⟩
  · intro u v layers P hb h1 h2 hd
    have he : max (1 / 1000000 : ℝ) (min 1 P.eta) = P.eta := by
      rw [min_eq_right h2, max_eq_right h1]
    constructor
    · unfold move_theta move_grade
      rw [if_pos hd]
    · unfold move_energy_J E_regen E_grav_downhill
      rw [if_neg (by simp [hb]), he]
      exact congrArg some (congrArg (Max.max 0) (by ring))
  · intro u v P
    unfold move_d_m grid_step_m
    have h : ((v.1 : ℤ) - (u.1 : ℤ) ≠ 0 ∧ (v.2 : ℤ) - (u.2 : ℤ) ≠ 0) ↔
        ((u.1 : ℤ) - (v.1 : ℤ) ≠ 0 ∧ (u.2 : ℤ) - (v.2 : ℤ) ≠ 0) := by
      simp only [sub_ne_zero]
      exact ⟨fun ⟨a, b⟩ => ⟨a.symm, b.symm⟩, fun ⟨a, b⟩ => ⟨a.symm, b.symm⟩⟩
    rw [if_congr h rfl rfl]
  · intro u v layers P hb helev hrough hmin hmax hCrr hm hg hmpc h1 h2
    have he : max (1 / 1000000 : ℝ) (min 1 P.eta) = P.eta := by
      rw [min_eq_right h2, max_eq_right h1]
    have heta : (0 : ℝ) < P.eta := lt_of_lt_of_le (by norm_num) h1
    have hd : (0 : ℝ) ≤ move_d_m u v P := by
      unfold move_d_m grid_step_m
      refine mul_nonneg ?_ hmpc
      split
      · exact Real.sqrt_nonneg 2
      · exact zero_le_one
    have hgr : move_grade u v layers P = 0 := by
      unfold move_grade
      have hz : (if 0 < move_d_m u v P then
          (layers.elevation_m v.1 v.2 - layers.elevation_m u.1 u.2) /
            move_d_m u v P else 0) = 0 := by
        rw [helev]
        simp
      rw [hz, min_eq_right hmax, max_eq_right hmin]
    have hth : move_theta u v layers P = 0 := by
      unfold move_theta
      rw [hgr, Real.arctan_zero]
    have key : move_energy_J u v layers P = some (max 0
        (P.Crr * P.mass_kg * P.g / P.eta * move_d_m u v P)) := by
      unfold move_energy_J E_regen E_grav_downhill
      rw [if_neg (by simp [hb]), he, hth, hrough, Real.sin_zero,
        Real.cos_zero, neg_zero]
      refine congrArg some (congrArg (Max.max 0) ?_)
      rw [max_self, abs_one]
      ring
    rw [key, max_eq_right (mul_nonneg (div_nonneg
      (mul_nonneg (mul_nonneg hCrr hm) hg) heta.le) hd)]

theorem move_energy_formula_witness :
    move_energy_J (0, 0) (0, 1)
        ⟨fun _ _ => 7, fun _ _ => 0, fun _ _ => false⟩
        ⟨2, 3, 1 / 10, 9 / 10, 4, 5, 1 / 3, -1, 1⟩ =
      some ((1 / 10 : ℝ) * 2 * 3 / (9 / 10) *
        move_d_m (0, 0) (0, 1) ⟨2, 3, 1 / 10, 9 / 10, 4, 5, 1 / 3, -1, 1⟩) :=
  move_energy_formula.2.2 (0, 0) (0, 1)
    ⟨fun _ _ => 7, fun _ _ => 0, fun _ _ => false⟩
    ⟨2, 3, 1 / 10, 9 / 10, 4, 5, 1 / 3, -1, 1⟩
    rfl rfl rfl (by norm_num) (by norm_num) (by norm_num) (by norm_num)
    (by norm_num) (by norm_num) (by norm_num) (by norm_num)

/-- C6 as stated is false: `EnergyParams` of `mars_pathfinder/energy.py` is a
plain dataclass that applies no clamp, so `downhill_regen_eff = 0.9` is
accepted unchanged, and on a steep downhill edge the recovered energy
`E_regen` exceeds half of the downhill gravitational energy
`E_grav_downhill`. -/
theorem energy_regen_counterexample :
    c6P.downhill_regen_eff = 9 / 10 ∧
    0 < E_grav_downhill (0, 0) (0, 1) c6Layers c6P ∧
    E_grav_downhill (0, 0) (0, 1) c6Layers c6P / 2 <
      E_regen (0, 0) (0, 1) c6Layers c6P := by
  have hd : move_d_m (0, 0) (0, 1) c6P = 1 := by
    unfold move_d_m grid_step_m
    norm_num [c6P]
  have hgr : move_grade (0, 0) (0, 1) c6Layers c6P = -1 := by
    unfold move_grade
    rw [hd]
    norm_num [c6Layers, c6P, min_def, max_def]
  have hth : move_theta (0, 0) (0, 1) c6Layers c6P = -(Real.pi / 4) := by
    unfold move_theta
    rw [hgr, show (-1 : ℝ) = -(1 : ℝ) by norm_num, Real.arctan_neg,
      Real.arctan_one]
  have hsin : Real.sin (move_theta (0, 0) (0, 1) c6Layers c6P) =
      -(Real.sqrt 2 / 2) := by
    rw [hth, Real.sin_neg, Real.sin_pi_div_four]
  have hs2 : (0 : ℝ) < Real.sqrt 2 := Real.sqrt_pos.mpr (by norm_num)
  have hEd : E_grav_downhill (0, 0) (0, 1) c6Layers c6P =
      Real.sqrt 2 / 2 := by
    unfold E_grav_downhill
    rw [hsin, hd, neg_neg, max_eq_right (by positivity)]
    show (1 : ℝ) * 1 * (Real.sqrt 2 / 2) * 1 = Real.sqrt 2 / 2
    ring
  refine ⟨rfl, ?_, ?_⟩
  · rw [hEd]
    positivity
  · unfold E_regen
    rw [hEd]
    show Real.sqrt 2 / 2 / 2 < 9 / 10 * (Real.sqrt 2 / 2)
    linarith

/-- C6 (amended): the claim holds for the `energy_model.py` pipeline, whose
`EnergyParams.__init__` clamps `downhill_regen_eff` into `[0, 0.5]`: every
construction through it has regen efficiency at most `0.5`, and consequently
`E_regen ≤ E_grav_downhill / 2` on every edge (given nonnegative mass,
gravity and cell size). The `mars_pathfinder/energy.py` dataclass has no such
clamp (see the counterexample). -/
theorem energy_regen_clamped :
    (∀ mass g Crr eta mpc hs kr regen ming maxg : ℝ,
      (mkEnergyParamsEM mass g Crr eta mpc hs kr regen
          ming maxg).downhill_regen_eff ≤ 1 / 2) ∧
    (∀ (mass g Crr eta mpc hs kr regen ming maxg : ℝ)
      (layers : CostLayersR) (u v : ℕ × ℕ),
      0 ≤ mass → 0 ≤ g → 0 ≤ mpc →
      em_E_regen u v layers
          (mkEnergyParamsEM mass g Crr eta mpc hs kr regen ming maxg) ≤
        em_E_grav_downhill u v layers
          (mkEnergyParamsEM mass g Crr eta mpc hs kr regen ming maxg) / 2) := by
  constructor
  · intro mass g Crr eta mpc hs kr regen ming maxg
    show max 0 (min (1 / 2) regen) ≤ 1 / 2
    exact max_le (by norm_num) (min_le_left _ _)
  · intro mass g Crr eta mpc hs kr regen ming maxg layers u v hm hg hmpc
    have hE : 0 ≤ em_E_grav_downhill u v layers
        (mkEnergyParamsEM mass g Crr eta mpc hs kr regen ming maxg) := by
      unfold em_E_grav_downhill
      refine mul_nonneg (mul_nonneg (mul_nonneg hm hg) (le_max_left 0 _)) ?_
      unfold grid_step_m
      refine mul_nonneg ?_ hmpc
      split
      · exact Real.sqrt_nonneg 2
      · exact zero_le_one
    have hr : (mkEnergyParamsEM mass g Crr eta mpc hs kr regen
        ming maxg).downhill_regen_eff ≤ 1 / 2 :=
      max_le (by norm_num) (min_le_left _ _)
    unfold em_E_regen
    calc (mkEnergyParamsEM mass g Crr eta mpc hs kr regen
          ming maxg).downhill_regen_eff *
          em_E_grav_downhill u v layers
            (mkEnergyParamsEM mass g Crr eta mpc hs kr regen ming maxg) ≤
        1 / 2 * em_E_grav_downhill u v layers
          (mkEnergyParamsEM mass g Crr eta mpc hs kr regen ming maxg) :=
          mul_le_mul_of_nonneg_right hr hE
      _ = em_E_grav_downhill u v layers
          (mkEnergyParamsEM mass g Crr eta mpc hs kr regen ming maxg) / 2 := by
          ring

theorem energy_regen_clamped_witness :
    em_E_regen (0, 0) (0, 1)
        ⟨none, fun _ _ => 0, fun _ _ => 0, fun _ _ => false, 1⟩
        (mkEnergyParamsEM 1 1 0 1 1 0 0 1 (-1) 1) ≤
      em_E_grav_downhill (0, 0) (0, 1)
        ⟨none, fun _ _ => 0, fun _ _ => 0, fun _ _ => false, 1⟩
        (mkEnergyParamsEM 1 1 0 1 1 0 0 1 (-1) 1) / 2 :=
  energy_regen_clamped.2 1 1 0 1 1 0 0 1 (-1) 1
    ⟨none, fun _ _ => 0, fun _ _ => 0, fun _ _ => false, 1⟩
    (0, 0) (0, 1) (by norm_num) (by norm_num) (by norm_num)

theorem geoHd_c3_left :
    geoHd c3LonLat (0, 0) (0, 1) = Real.pi / 180 * MARS_R := by
  have hR : (0 : ℝ) < MARS_R := by
    show (0 : ℝ) < 3390000
    norm_num
  have hD : (0 : ℝ) < Real.pi / 180 * MARS_R := by positivity
  unfold geoHd c3LonLat horiz_dist_m
  norm_num
  rw [Real.sqrt_sq hD.le]

theorem geoHd_c3_right :
    geoHd c3LonLat (0, 2) (0, 1) = Real.pi / 180 * MARS_R := by
  have hR : (0 : ℝ) < MARS_R := by
    show (0 : ℝ) < 3390000
    norm_num
  have hD : (0 : ℝ) < Real.pi / 180 * MARS_R := by positivity
  unfold geoHd c3LonLat horiz_dist_m
  norm_num
  rw [Real.sqrt_sq hD.le]

/-- C3 as stated is false for the geographic variant
(`costs.edge_cost_factory`): two unblocked edges into the same destination
cell, with identical geodesic step distance, receive different costs — the
code's penalty factor `1 + slope_weight * |Δelevation|/hd` depends on the
source cell's elevation, while the claimed factor
`w_dist + w_slope*(slope(v)/45) + w_rough*roughness(v)` is a function of the
destination cell alone, so no reading of the claimed formula matches. -/
theorem edge_cost_geo_counterexample :
    c3Layers.blocked 0 1 = false ∧
    geoHd c3LonLat (0, 0) (0, 1) = geoHd c3LonLat (0, 2) (0, 1) ∧
    edge_cost c3Layers 3 1 c3LonLat (0, 0) (0, 1) ≠
      edge_cost c3Layers 3 1 c3LonLat (0, 2) (0, 1) := by
  have hR : (0 : ℝ) < MARS_R := by
    show (0 : ℝ) < 3390000
    norm_num
  have hD : (0 : ℝ) < Real.pi / 180 * MARS_R := by positivity
  have hne : Real.pi / 180 * MARS_R ≠ 0 := hD.ne'
  have hD5 : (5 : ℝ) ≤ Real.pi / 180 * MARS_R := by
    show (5 : ℝ) ≤ Real.pi / 180 * 3390000
    nlinarith [Real.pi_gt_three]
  have hDbig : (1 : ℝ) / 1000000 < Real.pi / 180 * MARS_R := by linarith
  have he00 : c3Layers.elevation_m 0 0 = 0 := by norm_num [c3Layers]
  have he01 : c3Layers.elevation_m 0 1 = 0 := by norm_num [c3Layers]
  have he02 : c3Layers.elevation_m 0 2 = 5 := by norm_num [c3Layers]
  have hc1 : edge_cost c3Layers 3 1 c3LonLat (0, 0) (0, 1) =
      some (Real.pi / 180 * MARS_R) := by
    unfold edge_cost
    rw [if_neg (by norm_num [c3Layers])]
    dsimp only
    rw [show horiz_dist_m (c3LonLat 0 0).1 (c3LonLat 0 0).2
        (c3LonLat 0 1).1 (c3LonLat 0 1).2 = Real.pi / 180 * MARS_R from
      geoHd_c3_left]
    rw [if_neg (not_le.mpr hDbig), he01, he00]
    rw [show |(0 : ℝ) - 0| / (Real.pi / 180 * MARS_R) = 0 by norm_num]
    rw [if_neg (not_lt.mpr (show (0 : ℝ) ≤ 1 * EDGE_TOL by
      show (0 : ℝ) ≤ 1 * (11 / 10); norm_num))]
    norm_num
  have hc2 : edge_cost c3Layers 3 1 c3LonLat (0, 2) (0, 1) =
      some (Real.pi / 180 * MARS_R + 15) := by
    unfold edge_cost
    rw [if_neg (by norm_num [c3Layers])]
    dsimp only
    rw [show horiz_dist_m (c3LonLat 0 2).1 (c3LonLat 0 2).2
        (c3LonLat 0 1).1 (c3LonLat 0 1).2 = Real.pi / 180 * MARS_R from
      geoHd_c3_right]
    rw [if_neg (not_le.mpr hDbig), he01, he02]
    rw [show |(0 : ℝ) - 5| = 5 by norm_num]
    have hgr : (5 : ℝ) / (Real.pi / 180 * MARS_R) ≤ 1 * EDGE_TOL := by
      have ha : (5 : ℝ) / (Real.pi / 180 * MARS_R) ≤ 1 :=
        (div_le_one hD).mpr hD5
      have hb : (1 : ℝ) ≤ 1 * EDGE_TOL := by
        show (1 : ℝ) ≤ 1 * (11 / 10)
        norm_num
      linarith
    rw [if_neg (not_lt.mpr hgr)]
    refine congrArg some ?_
    field_simp
    ring
  refine ⟨rfl, geoHd_c3_left.trans geoHd_c3_right.symm, ?_⟩
  rw [hc1, hc2]
  intro h
  have h2 := Option.some.inj h
  linarith

/-- C3 (amended): the uniform-grid model (`WeightedCost` of
`cost_layers.py`, with the default `√2` diagonal multiplier) charges an
in-bounds unblocked destination exactly
`metersPerCell * (√2 if diagonal else 1) *
(w_dist + w_slope*(slope(v)/45) + w_rough*roughness(v))`. The geographic
model (`costs.edge_cost_factory`) instead charges
`hd * (1 + slope_weight * |Δelevation|/hd)` with `hd` the geodesic step
distance, and returns the impassable sentinel `None` when the destination is
blocked, when `hd ≤ 1e-6`, or when the grade exceeds
`max_grade * EDGE_TOL`. -/
theorem slope_cost_formula :
    (∀ (w_dist w_slope w_rough : ℝ) (bp : WithTop ℝ) (layers : CostLayersR)
      (H W : ℕ) (u v : ℕ × ℕ), v.1 < H → v.2 < W →
      layers.blocked v.1 v.2 = false →
      WeightedCostR_edge_cost w_dist w_slope w_rough (Real.sqrt 2) bp
          layers H W u v =
        ((layers.meters_per_cell *
            (if v.1 ≠ u.1 ∧ v.2 ≠ u.2 then Real.sqrt 2 else 1) *
            (w_dist + w_slope * (layers.slope v.1 v.2 / 45) +
              w_rough * layers.rough v.1 v.2) : ℝ) : WithTop ℝ)) ∧
    (∀ (layers : Layers) (sw mg : ℝ) (ll : ℕ → ℕ → ℝ × ℝ) (u v : ℕ × ℕ),
      layers.blocked v.1 v.2 = false →
      1 / 1000000 < geoHd ll u v →
      geoGrade layers ll u v ≤ mg * EDGE_TOL →
      edge_cost layers sw mg ll u v =
        some (geoHd ll u v * (1 + sw * geoGrade layers ll u v))) ∧
    (∀ (layers : Layers) (sw mg : ℝ) (ll : ℕ → ℕ → ℝ × ℝ) (u v : ℕ × ℕ),
      layers.blocked v.1 v.2 = true →
      edge_cost layers sw mg ll u v = none) ∧
    (∀ (layers : Layers) (sw mg : ℝ) (ll : ℕ → ℕ → ℝ × ℝ) (u v : ℕ × ℕ),
      geoHd ll u v ≤ 1 / 1000000 →
      edge_cost layers sw mg ll u v = none) ∧
    (∀ (layers : Layers) (sw mg : ℝ) (ll : ℕ → ℕ → ℝ × ℝ) (u v : ℕ × ℕ),
      mg * EDGE_TOL < geoGrade layers ll u v →
      edge_cost layers sw mg ll u v = none) := by
  refine ⟨?_, ?_, ?_, ?_, ?_⟩
  · intro w_dist w_slope w_rough bp layers H W u v h1 h2 hb
    unfold WeightedCostR_edge_cost
    rw [if_neg (not_not_intro ⟨h1, h2⟩), if_neg (by simp [hb])]
  · intro layers sw mg ll u v hb hhd hgr
    unfold geoHd at hhd
    unfold geoGrade geoHd at hgr
    unfold edge_cost
    rw [if_neg (by simp [hb]), if_neg (not_le.mpr hhd),
      if_neg (not_lt.mpr hgr)]
    rfl
  · intro layers sw mg ll u v hb
    unfold edge_cost
    rw [if_pos hb]
  · intro layers sw mg ll u v hhd
    unfold geoHd at hhd
    unfold edge_cost
    by_cases hb : layers.blocked v.1 v.2 = true
    · rw [if_pos hb]
    · rw [if_neg hb, if_pos hhd]
  · intro layers sw mg ll u v hgr
    unfold geoGrade geoHd at hgr
    unfold edge_cost
    by_cases hb : layers.blocked v.1 v.2 = true
    · rw [if_pos hb]
    · rw [if_neg hb]
      by_cases hhd : horiz_dist_m (ll u.1 u.2).1 (ll u.1 u.2).2
          (ll v.1 v.2).1 (ll v.1 v.2).2 ≤ 1 / 1000000
      · rw [if_pos hhd]
      · rw [if_neg hhd, if_pos hgr]

theorem slope_cost_formula_witness :
    WeightedCostR_edge_cost 1 3 1 (Real.sqrt 2) ⊤
        ⟨none, fun _ _ => 45, fun _ _ => 2, fun _ _ => false, 10⟩ 5 5
        (0, 0) (1, 1) =
      (((10 : ℝ) * (if (1 : ℕ) ≠ 0 ∧ (1 : ℕ) ≠ 0 then Real.sqrt 2 else 1) *
        (1 + 3 * ((45 : ℝ) / 45) + 1 * (2 : ℝ)) : ℝ) : WithTop ℝ) :=
  slope_cost_formula.1 1 3 1 ⊤
    ⟨none, fun _ _ => 45, fun _ _ => 2, fun _ _ => false, 10⟩ 5 5
    (0, 0) (1, 1) (by decide) (by decide) rfl

theorem ratOps_add (a b : ℚ) : ratOps.add a b = a + b := qadd_eq a b

theorem ratOps_mul (a b : ℚ) : ratOps.mul a b = a * b := qmul_eq a b

theorem ratOps_subTol (a : ℚ) : ratOps.subTol a = a - tolQ := qsub_eq a tolQ

theorem ratOps_blt (a b : ℚ) : ratOps.blt a b = true ↔ a < b := by
  show decide (a < b) = true ↔ a < b
  simp

theorem ratOps_blt_false (a b : ℚ) : ratOps.blt a b = false ↔ b ≤ a := by
  show decide (a < b) = false ↔ b ≤ a
  simp [not_lt]

theorem ratOps_ble (a b : ℚ) : ratOps.ble a b = true ↔ a ≤ b := by
  show decide (a ≤ b) = true ↔ a ≤ b
  simp

theorem entryLt_ratOps (a b : Entry ℚ V) : entryLt ratOps a b = true ↔
    (a.f < b.f ∨ (a.f = b.f ∧
      (a.h < b.h ∨ (a.h = b.h ∧ a.ctr < b.ctr)))) := by
  show (ratOps.blt a.f b.f || (decide (a.f = b.f) &&
    (ratOps.blt a.h b.h ||
      (decide (a.h = b.h) && decide (a.ctr < b.ctr))))) = true ↔ _
  simp only [Bool.or_eq_true, Bool.and_eq_true, decide_eq_true_eq,
    ratOps_blt]

theorem entryLt_ratOps_false (a b : Entry ℚ V) :
    entryLt ratOps a b = false ↔
    (b.f < a.f ∨ (b.f = a.f ∧
      (b.h < a.h ∨ (b.h = a.h ∧ b.ctr ≤ a.ctr)))) := by
  rw [← Bool.not_eq_true, entryLt_ratOps]
  constructor
  · intro h
    push_neg at h
    obtain ⟨h1, h2⟩ := h
    rcases lt_trichotomy a.f b.f with hff | hff | hff
    · exact absurd hff (not_lt.mpr h1)
    · refine Or.inr ⟨hff.symm, ?_⟩
      have h3 := h2 hff
      push_neg at h3
      obtain ⟨h4, h5⟩ := h3
      rcases lt_trichotomy a.h b.h with hhh | hhh | hhh
      · exact absurd hhh (not_lt.mpr h4)
      · exact Or.inr ⟨hhh.symm, h5 hhh⟩
      · exact Or.inl hhh
    · exact Or.inl hff
  · intro h hk
    rcases h with h | ⟨e1, h⟩
    · rcases hk with hk | ⟨e2, _⟩
      · exact absurd (lt_trans h hk) (lt_irrefl _)
      · rw [e2] at h
        exact absurd h (lt_irrefl _)
    · rcases hk with hk | ⟨e2, hk⟩
      · rw [e1] at hk
        exact absurd hk (lt_irrefl _)
      · rcases h with h | ⟨e3, h⟩
        · rcases hk with hk | ⟨e4, _⟩
          · exact absurd (lt_trans h hk) (lt_irrefl _)
          · rw [e4] at h
            exact absurd h (lt_irrefl _)
        · rcases hk with hk | ⟨e4, hk⟩
          · rw [e3] at hk
            exact absurd hk (lt_irrefl _)
          · exact absurd hk (Nat.not_lt.mpr h)

theorem entryLt_ratOps_trans {a b c : Entry ℚ V}
    (h1 : entryLt ratOps a b = true) (h2 : entryLt ratOps b c = true) :
    entryLt ratOps a c = true := by
  rw [entryLt_ratOps] at h1 h2 ⊢
  rcases h1 with h1 | ⟨e1, h1⟩ <;> rcases h2 with h2 | ⟨e2, h2⟩
  · exact Or.inl (lt_trans h1 h2)
  · exact Or.inl (e2 ▸ h1)
  · exact Or.inl (e1 ▸ h2)
  · refine Or.inr ⟨e1.trans e2, ?_⟩
    rcases h1 with h1 | ⟨f1, h1⟩ <;> rcases h2 with h2 | ⟨f2, h2⟩
    · exact Or.inl (lt_trans h1 h2)
    · exact Or.inl (f2 ▸ h1)
    · exact Or.inl (f1 ▸ h2)
    · exact Or.inr ⟨f1.trans f2, Nat.lt_trans h1 h2⟩

theorem entryLt_ratOps_false_trans {a b c : Entry ℚ V}
    (h1 : entryLt ratOps a b = false) (h2 : entryLt ratOps b c = false) :
    entryLt ratOps a c = false := by
  rw [entryLt_ratOps_false] at h1 h2 ⊢
  rcases h1 with h1 | ⟨e1, h1⟩ <;> rcases h2 with h2 | ⟨e2, h2⟩
  · exact Or.inl (lt_trans h2 h1)
  · exact Or.inl (e2 ▸ h1)
  · exact Or.inl (e1 ▸ h2)
  · refine Or.inr ⟨e2.trans e1, ?_⟩
    rcases h1 with h1 | ⟨f1, h1⟩ <;> rcases h2 with h2 | ⟨f2, h2⟩
    · exact Or.inl (lt_trans h2 h1)
    · exact Or.inl (f2 ▸ h1)
    · exact Or.inl (f1 ▸ h2)
    · exact Or.inr ⟨f2.trans f1, le_trans h2 h1⟩

theorem popMinAux_min (e : Entry ℚ V) (l : List (Entry ℚ V)) :
    ∀ x ∈ e :: l, entryLt ratOps x (popMinAux ratOps e l).1 = false := by
  induction l generalizing e with
  | nil =>
    intro x hx
    simp only [List.mem_cons, List.not_mem_nil, or_false] at hx
    subst hx
    rw [popMinAux, entryLt_ratOps_false]
    exact Or.inr ⟨rfl, Or.inr ⟨rfl, le_refl _⟩⟩
  | cons y rest ih =>
    intro x hx
    rw [popMinAux]
    by_cases hlt : entryLt ratOps y e = true
    · rw [if_pos hlt]
      dsimp only
      rcases List.mem_cons.mp hx with rfl | hx2
      · by_contra hc
        rw [Bool.not_eq_false] at hc
        have h3 := entryLt_ratOps_trans hlt hc
        rw [ih y y (List.mem_cons_self ..)] at h3
        exact Bool.noConfusion h3
      · exact ih y x hx2
    · rw [if_neg hlt]
      dsimp only
      have hye : entryLt ratOps y e = false := by
        rw [Bool.eq_false_iff]
        exact hlt
      rcases List.mem_cons.mp hx with rfl | hx2
      · exact ih _ _ (List.mem_cons_self ..)
      · rcases List.mem_cons.mp hx2 with rfl | hx3
        · exact entryLt_ratOps_false_trans hye
            (ih e e (List.mem_cons_self ..))
        · exact ih e x (List.mem_cons_of_mem _ hx3)

theorem popMinAux_mem_or_eq [DecidableEq C] (M : NumOps C)
    (e : Entry C V) (l : List (Entry C V)) :
    ∀ x ∈ e :: l, x ∈ (popMinAux M e l).2 ∨ x = (popMinAux M e l).1 := by
  induction l generalizing e with
  | nil =>
    intro x hx
    simp only [List.mem_cons, List.not_mem_nil, or_false] at hx
    subst hx
    rw [popMinAux]
    exact Or.inr rfl
  | cons y rest ih =>
    intro x hx
    rw [popMinAux]
    by_cases hlt : entryLt M y e = true
    · rw [if_pos hlt]
      dsimp only
      rcases List.mem_cons.mp hx with rfl | hx2
      · exact Or.inl (List.mem_cons_self ..)
      · rcases ih y x hx2 with h | h
        · exact Or.inl (List.mem_cons_of_mem _ h)
        · exact Or.inr h
    · rw [if_neg hlt]
      dsimp only
      rcases List.mem_cons.mp hx with rfl | hx2
      · rcases ih _ _ (List.mem_cons_self ..) with h | h
        · exact Or.inl (List.mem_cons_of_mem _ h)
        · exact Or.inr h
      · rcases List.mem_cons.mp hx2 with rfl | hx3
        · exact Or.inl (List.mem_cons_self ..)
        · rcases ih e x (List.mem_cons_of_mem _ hx3) with h | h
          · exact Or.inl (List.mem_cons_of_mem _ h)
          · exact Or.inr h

theorem Reach_nonneg {nbrs : V → List V} {cost : V → V → Option ℚ}
    {src : V} (hnn : ∀ u v c, cost u v = some c → 0 ≤ c) {v : V} {d : ℚ}
    (h : Reach nbrs cost src v d) : 0 ≤ d := by
  induction h with
  | base => exact le_refl 0
  | step hr hm hc ih => exact add_nonneg ih (hnn _ _ _ hc)

theorem gkeyed_mono [DecidableEq V] {β : Type} (l : List (V × β)) (k x : V)
    (b : β) (h : ∃ d, alookup l x = some d) :
    ∃ d, alookup ((k, b) :: l) x = some d := by
  by_cases hx : x = k
  · subst hx
    exact ⟨b, alookup_cons_eq l x b⟩
  · rw [alookup_cons_ne l k x b hx]
    exact h

theorem relaxStep_cases [DecidableEq V] (goal : V) (cost : V → V → Option ℚ)
    (hf : V → ℚ) (u : V) (gu : ℚ) (st : AState ℚ V) (v : V) :
    (cost u v = none ∧ relaxStep ratOps goal cost hf 1 u gu st v = st) ∨
    (∃ c, cost u v = some c ∧ v ∈ st.order ∧
      relaxStep ratOps goal cost hf 1 u gu st v = st) ∨
    (∃ c old, cost u v = some c ∧ v ∉ st.order ∧
      alookup st.g v = some old ∧ ¬(gu + c < old - tolQ) ∧
      relaxStep ratOps goal cost hf 1 u gu st v = st) ∨
    (∃ c, cost u v = some c ∧ v ∉ st.order ∧
      (alookup st.g v = none ∨
        ∃ old, alookup st.g v = some old ∧ gu + c < old - tolQ) ∧
      (relaxStep ratOps goal cost hf 1 u gu st v).openh =
        st.openh ++ [⟨gu + c + hf v, hf v, st.counter + 1, v⟩] ∧
      (relaxStep ratOps goal cost hf 1 u gu st v).g = (v, gu + c) :: st.g ∧
      (relaxStep ratOps goal cost hf 1 u gu st v).parent =
        (v, some u) :: st.parent ∧
      (relaxStep ratOps goal cost hf 1 u gu st v).order = st.order ∧
      (relaxStep ratOps goal cost hf 1 u gu st v).expansions =
        st.expansions ∧
      ((relaxStep ratOps goal cost hf 1 u gu st v).bestCost = st.bestCost ∨
        (v = goal ∧ (relaxStep ratOps goal cost hf 1 u gu st v).bestCost =
          some (gu + c)))) := by
  rw [relaxStep]
  cases hc : cost u v with
  | none => exact Or.inl ⟨rfl, rfl⟩
  | some c =>
    dsimp only
    by_cases hvo : v ∈ st.order
    · rw [if_pos hvo]
      exact Or.inr (Or.inl ⟨c, rfl, hvo, rfl⟩)
    · rw [if_neg hvo]
      split
      next hdr =>
        refine Or.inr (Or.inr (Or.inr ⟨c, rfl, hvo, ?_, ?_, ?_, ?_, ?_, ?_,
          ?_⟩))
        · cases hg : alookup st.g v with
          | none => exact Or.inl rfl
          | some old =>
            rw [hg] at hdr
            dsimp only at hdr
            refine Or.inr ⟨old, rfl, ?_⟩
            rw [ratOps_add, ratOps_subTol] at hdr
            exact (ratOps_blt _ _).mp hdr
        · dsimp only
          simp only [ratOps_add, ratOps_mul, one_mul]
        · dsimp only
          rw [ratOps_add]
        · rfl
        · rfl
        · rfl
        · dsimp only
          by_cases hvg : v = goal
          · rw [if_pos hvg]
            cases hbc : st.bestCost with
            | none => exact Or.inr ⟨hvg, by rw [ratOps_add]⟩
            | some b =>
              dsimp only
              by_cases hblt :
                  ratOps.blt (ratOps.add gu c) (ratOps.subTol b) = true
              · rw [if_pos hblt]
                exact Or.inr ⟨hvg, by rw [ratOps_add]⟩
              · rw [if_neg (by simpa using hblt)]
                exact Or.inl rfl
          · rw [if_neg hvg]
            exact Or.inl rfl
      next hdr =>
        cases hg : alookup st.g v with
        | none =>
          rw [hg] at hdr
          dsimp only at hdr
          exact absurd rfl hdr
        | some old =>
          rw [hg] at hdr
          dsimp only at hdr
          refine Or.inr (Or.inr (Or.inl ⟨c, old, rfl, hvo, rfl, ?_, rfl⟩))
          intro hlt
          refine hdr ?_
          rw [ratOps_add, ratOps_subTol, ratOps_blt]
          exact hlt

theorem relaxStep_mid [DecidableEq V] {nbrs : V → List V}
    {cost : V → V → Option ℚ} {hf : V → ℚ} {start goal u : V} {gu : ℚ}
    (hnn : ∀ u v c, cost u v = some c → 0 ≤ c)
    (hsep : SepCosts nbrs cost start)
    (hRu : Reach nbrs cost start u gu)
    {st : AState ℚ V} (inv : MidInv nbrs cost hf start goal u gu st)
    (v : V) (hm : v ∈ nbrs u) :
    MidInv nbrs cost hf start goal u gu
        (relaxStep ratOps goal cost hf 1 u gu st v) ∧
      (∀ x d, alookup st.g x = some d →
        ∃ d', alookup (relaxStep ratOps goal cost hf 1 u gu st v).g x =
          some d' ∧ d' ≤ d) ∧
      (∀ c, cost u v = some c →
        ∃ dv, alookup (relaxStep ratOps goal cost hf 1 u gu st v).g v =
          some dv ∧ dv ≤ gu + c) := by
  rcases relaxStep_cases goal cost hf u gu st v with
    ⟨hcn, heq⟩ | ⟨c, hc, hvo, heq⟩ | ⟨c, old, hc, hvo, hgv, hnlt, heq⟩ |
    ⟨c, hc, hvo, hrel, hOp, hG, hPar, hOrd, hExp, hBest⟩
  · rw [heq]
    refine ⟨inv, fun x d h => ⟨d, h, le_refl d⟩, fun c hc2 => ?_⟩
    rw [hcn] at hc2
    cases hc2
  · rw [heq]
    refine ⟨inv, fun x d h => ⟨d, h, le_refl d⟩, fun c' hc2 => ?_⟩
    rw [hc] at hc2
    injection hc2 with hc2
    subst hc2
    obtain ⟨dv, hdv⟩ := inv.closedG v hvo
    exact ⟨dv, hdv,
      inv.closedOpt v hvo dv hdv (gu + c) (Reach.step hRu hm hc)⟩
  · rw [heq]
    refine ⟨inv, fun x d h => ⟨d, h, le_refl d⟩, fun c' hc2 => ?_⟩
    rw [hc] at hc2
    injection hc2 with hc2
    subst hc2
    have hRold : Reach nbrs cost start v old := inv.gReach v old hgv
    have hRalt : Reach nbrs cost start v (gu + c) :=
      Reach.step hRu hm hc
    rcases hsep v old (gu + c) hRold hRalt with he | habs
    · exact ⟨old, hgv, le_of_eq he⟩
    · by_cases hle : old ≤ gu + c
      · exact ⟨old, hgv, hle⟩
      · push_neg at hle
        rw [abs_of_pos (sub_pos.mpr hle)] at habs
        exact absurd (by linarith) hnlt
  · have hvu : v ≠ u := fun h => hvo (h ▸ inv.uIn)
    have hvstart : v ≠ start := by
      intro h
      subst h
      rcases hrel with hrel | ⟨old, hold, hlt⟩
      · rw [inv.startG] at hrel
        cases hrel
      · rw [inv.startG] at hold
        injection hold with hold
        have h1 : 0 ≤ gu := Reach_nonneg hnn hRu
        have h2 : 0 ≤ c := hnn _ _ _ hc
        have h3 := tolQ_pos
        rw [← hold] at hlt
        linarith
    refine ⟨⟨?_, ?_, ?_, ?_, ?_, ?_, ?_, ?_, ?_, ?_, ?_, ?_, ?_⟩, ?_, ?_⟩
    · -- gReach
      intro x d h
      rw [hG] at h
      by_cases hx : x = v
      · subst hx
        rw [alookup_cons_eq] at h
        injection h with h
        subst h
        exact Reach.step hRu hm hc
      · rw [alookup_cons_ne _ _ _ _ hx] at h
        exact inv.gReach x d h
    · -- startG
      rw [hG, alookup_cons_ne _ _ _ _ (Ne.symm hvstart)]
      exact inv.startG
    · -- heapG
      intro e he
      rw [hOp] at he
      simp only [List.mem_append, List.mem_singleton] at he
      rcases he with he | rfl
      · rw [hG]
        exact gkeyed_mono _ _ _ _ (inv.heapG e he)
      · rw [hG]
        exact ⟨gu + c, alookup_cons_eq _ _ _⟩
    · -- closedG
      intro w hw
      rw [hOrd] at hw
      rw [hG]
      exact gkeyed_mono _ _ _ _ (inv.closedG w hw)
    · -- closedOpt
      intro w hw d hd D hD
      rw [hOrd] at hw
      rw [hG] at hd
      have hwv : w ≠ v := fun h => hvo (h ▸ hw)
      rw [alookup_cons_ne _ _ _ _ hwv] at hd
      exact inv.closedOpt w hw d hd D hD
    · -- closedRelaxExc
      intro w hw hwne v' hv' c' hc' dw hdw
      rw [hOrd] at hw
      rw [hG] at hdw ⊢
      have hwv : w ≠ v := fun h => hvo (h ▸ hw)
      rw [alookup_cons_ne _ _ _ _ hwv] at hdw
      obtain ⟨dv0, hdv0, hb0⟩ :=
        inv.closedRelaxExc w hw hwne v' hv' c' hc' dw hdw
      by_cases hv'v : v' = v
      · subst hv'v
        rcases hrel with hrel | ⟨old, hold, hlt⟩
        · rw [hrel] at hdv0
          cases hdv0
        · rw [hold] at hdv0
          injection hdv0 with hdv0
          subst hdv0
          refine ⟨gu + c, alookup_cons_eq _ _ _, ?_⟩
          have := tolQ_pos
          linarith
      · rw [alookup_cons_ne _ _ _ _ hv'v]
        exact ⟨dv0, hdv0, hb0⟩
    · -- openBound
      intro x hx dx hdx
      rw [hOrd] at hx
      rw [hG] at hdx
      by_cases hxv : x = v
      · subst hxv
        rw [alookup_cons_eq] at hdx
        injection hdx with hdx
        subst hdx
        refine ⟨⟨gu + c + hf x, hf x, st.counter + 1, x⟩, ?_, rfl, le_refl _⟩
        rw [hOp]
        exact List.mem_append_right _ (List.mem_singleton.mpr rfl)
      · rw [alookup_cons_ne _ _ _ _ hxv] at hdx
        obtain ⟨e, he, hn, hb⟩ := inv.openBound x hx dx hdx
        refine ⟨e, ?_, hn, hb⟩
        rw [hOp]
        exact List.mem_append_left _ he
    · -- entryF
      intro e he d hd
      rw [hOp] at he
      simp only [List.mem_append, List.mem_singleton] at he
      rcases he with he | rfl
      · rw [hG] at hd
        by_cases hev : e.node = v
        · rw [hev, alookup_cons_eq] at hd
          injection hd with hd
          subst hd
          rcases hrel with hrel | ⟨old, hold, hlt⟩
          · obtain ⟨d0, hd0⟩ := inv.heapG e he
            rw [hev, hrel] at hd0
            cases hd0
          · have hEF := inv.entryF e he old (by rw [hev]; exact hold)
            have := tolQ_pos
            have hhh : gu + c + hf e.node ≤ old + hf e.node := by linarith
            linarith
        · rw [alookup_cons_ne _ _ _ _ hev] at hd
          exact inv.entryF e he d hd
      · rw [hG] at hd
        dsimp only at hd
        rw [alookup_cons_eq] at hd
        injection hd with hd
        subst hd
        exact le_refl _
    · -- goalOpen
      rw [hOrd]
      exact inv.goalOpen
    · -- bestReach
      intro b hb
      rcases hBest with hB | ⟨hvg, hB⟩
      · rw [hB] at hb
        exact inv.bestReach b hb
      · rw [hB] at hb
        injection hb with hb
        subst hb
        subst hvg
        exact Reach.step hRu hm hc
    · -- bestHeap
      intro b hb
      rcases hBest with hB | ⟨hvg, hB⟩
      · rw [hB] at hb
        obtain ⟨e, he, hn⟩ := inv.bestHeap b hb
        refine ⟨e, ?_, hn⟩
        rw [hOp]
        exact List.mem_append_left _ he
      · refine ⟨⟨gu + c + hf v, hf v, st.counter + 1, v⟩, ?_, hvg⟩
        rw [hOp]
        exact List.mem_append_right _ (List.mem_singleton.mpr rfl)
    · -- uIn
      rw [hOrd]
      exact inv.uIn
    · -- uG
      rw [hG, alookup_cons_ne _ _ _ _ (Ne.symm hvu)]
      exact inv.uG
    · -- g-monotone
      intro x d h
      by_cases hx : x = v
      · subst hx
        rcases hrel with hrel | ⟨old, hold, hlt⟩
        · rw [hrel] at h
          cases h
        · rw [hold] at h
          injection h with h
          subst h
          refine ⟨gu + c, by rw [hG]; exact alookup_cons_eq _ _ _, ?_⟩
          have := tolQ_pos
          linarith
      · exact ⟨d, by rw [hG]; rw [alookup_cons_ne _ _ _ _ hx]; exact h,
          le_refl d⟩
    · -- freshly processed bound
      intro c' hc2
      rw [hc] at hc2
      injection hc2 with hc2
      subst hc2
      exact ⟨gu + c, by rw [hG]; exact alookup_cons_eq _ _ _, le_refl _⟩

theorem relaxNbrs_mid [DecidableEq V] {nbrs : V → List V}
    {cost : V → V → Option ℚ} {hf : V → ℚ} {start goal u : V} {gu : ℚ}
    (hnn : ∀ u v c, cost u v = some c → 0 ≤ c)
    (hsep : SepCosts nbrs cost start)
    (hRu : Reach nbrs cost start u gu) :
    ∀ (vs : List V) (st : AState ℚ V),
      MidInv nbrs cost hf start goal u gu st → (∀ v ∈ vs, v ∈ nbrs u) →
      MidInv nbrs cost hf start goal u gu
          (relaxNbrs ratOps goal cost hf 1 u gu vs st) ∧
        (∀ x d, alookup st.g x = some d →
          ∃ d', alookup (relaxNbrs ratOps goal cost hf 1 u gu vs st).g x =
            some d' ∧ d' ≤ d) ∧
        (∀ v ∈ vs, ∀ c, cost u v = some c →
          ∃ dv, alookup (relaxNbrs ratOps goal cost hf 1 u gu vs st).g v =
            some dv ∧ dv ≤ gu + c) := by
  intro vs
  induction vs with
  | nil =>
    intro st inv _
    refine ⟨inv, fun x d h => ⟨d, h, le_refl d⟩, ?_⟩
    intro v hv
    cases hv
  | cons v rest ih =>
    intro st inv hsub
    rw [relaxNbrs, List.foldl_cons]
    rw [show List.foldl (relaxStep ratOps goal cost hf 1 u gu)
      (relaxStep ratOps goal cost hf 1 u gu st v) rest =
      relaxNbrs ratOps goal cost hf 1 u gu rest
        (relaxStep ratOps goal cost hf 1 u gu st v) from rfl]
    obtain ⟨inv1, mono1, vb1⟩ :=
      relaxStep_mid hnn hsep hRu inv v (hsub v (List.mem_cons_self ..))
    obtain ⟨inv2, mono2, pb2⟩ := ih _ inv1
      (fun w hw => hsub w (List.mem_cons_of_mem _ hw))
    refine ⟨inv2, ?_, ?_⟩
    · intro x d h
      obtain ⟨d1, h1, l1⟩ := mono1 x d h
      obtain ⟨d2, h2, l2⟩ := mono2 x d1 h1
      exact ⟨d2, h2, le_trans l2 l1⟩
    · intro w hw c hc
      rcases List.mem_cons.mp hw with rfl | hw2
      · obtain ⟨dv, hdv, hb⟩ := vb1 c hc
        obtain ⟨dv2, hdv2, hb2⟩ := mono2 w dv hdv
        exact ⟨dv2, hdv2, le_trans hb2 hb⟩
      · exact pb2 w hw2 c hc

theorem ratOps_one : ratOps.one = 1 := rfl

theorem ratOps_zero : ratOps.zero = 0 := rfl

theorem OptInv.cover [DecidableEq V] {nbrs : V → List V}
    {cost : V → V → Option ℚ} {hf : V → ℚ} {start goal : V}
    {st : AState ℚ V}
    (hcons : ∀ u v c, v ∈ nbrs u → cost u v = some c → hf u ≤ c + hf v)
    (inv : OptInv nbrs cost hf start goal st) {v : V} {D : ℚ}
    (hD : Reach nbrs cost start v D) :
    v ∉ st.order → ∃ e ∈ st.openh, e.f ≤ D + hf v := by
  induction hD with
  | base =>
    intro hv
    obtain ⟨e, he, _, hb⟩ := inv.openBound start hv 0 inv.startG
    exact ⟨e, he, hb⟩
  | @step u w d c hr hm hc ih =>
    intro hv
    by_cases hu : u ∈ st.order
    · obtain ⟨du, hdu⟩ := inv.closedG u hu
      have h1 : du ≤ d := inv.closedOpt u hu du hdu d hr
      obtain ⟨dv, hdv, h2⟩ := inv.closedRelax u hu w hm c hc du hdu
      obtain ⟨e, he, _, h3⟩ := inv.openBound w hv dv hdv
      exact ⟨e, he, by linarith⟩
    · obtain ⟨e, he, h3⟩ := ih hu
      have h4 := hcons u w c hm hc
      exact ⟨e, he, by linarith⟩

theorem pop_opt [DecidableEq V] {nbrs : V → List V}
    {cost : V → V → Option ℚ} {hf : V → ℚ} {start goal : V}
    {st : AState ℚ V}
    (hcons : ∀ u v c, v ∈ nbrs u → cost u v = some c → hf u ≤ c + hf v)
    (inv : OptInv nbrs cost hf start goal st)
    (e0 : Entry ℚ V) (rest : List (Entry ℚ V)) (hO : st.openh = e0 :: rest)
    (hup : (popMinAux ratOps e0 rest).1.node ∉ st.order)
    {du D : ℚ}
    (hdu : alookup st.g (popMinAux ratOps e0 rest).1.node = some du)
    (hD : Reach nbrs cost start (popMinAux ratOps e0 rest).1.node D) :
    du ≤ D := by
  obtain ⟨e, he, hef⟩ := inv.cover hcons hD hup
  rw [hO] at he
  have hmin : entryLt ratOps e (popMinAux ratOps e0 rest).1 = false :=
    popMinAux_min e0 rest e he
  have h1 : (popMinAux ratOps e0 rest).1.f ≤ e.f := by
    rcases (entryLt_ratOps_false _ _).mp hmin with h | ⟨hEq, _⟩
    · exact le_of_lt h
    · exact le_of_eq hEq
  have h2 : du + hf ((popMinAux ratOps e0 rest).1.node) ≤
      (popMinAux ratOps e0 rest).1.f :=
    inv.entryF _ (by rw [hO]; exact popMinAux_fst_mem ratOps e0 rest) du hdu
  linarith

theorem OptInv.popped_skip [DecidableEq V] {nbrs : V → List V}
    {cost : V → V → Option ℚ} {hf : V → ℚ} {start goal : V}
    {st : AState ℚ V} (inv : OptInv nbrs cost hf start goal st)
    (e0 : Entry ℚ V) (rest : List (Entry ℚ V)) (hO : st.openh = e0 :: rest)
    (hin : (popMinAux ratOps e0 rest).1.node ∈ st.order) :
    OptInv nbrs cost hf start goal
      { st with openh := (popMinAux ratOps e0 rest).2 } := by
  refine ⟨inv.gReach, inv.startG, ?_, inv.closedG, inv.closedOpt,
    inv.closedRelax, ?_, ?_, inv.goalOpen, inv.bestReach, ?_⟩
  · intro e he
    exact inv.heapG e
      (by rw [hO]; exact popMinAux_snd_subset ratOps e0 rest e he)
  · intro x hx dx hdx
    obtain ⟨e, he, hn, hb⟩ := inv.openBound x hx dx hdx
    rw [hO] at he
    rcases popMinAux_mem_or_eq ratOps e0 rest e he with h | h
    · exact ⟨e, h, hn, hb⟩
    · exfalso
      apply hx
      rw [← hn, h]
      exact hin
  · intro e he d hd
    exact inv.entryF e
      (by rw [hO]; exact popMinAux_snd_subset ratOps e0 rest e he) d hd
  · intro b hb
    obtain ⟨e, he, hn⟩ := inv.bestHeap b hb
    rw [hO] at he
    rcases popMinAux_mem_or_eq ratOps e0 rest e he with h | h
    · exact ⟨e, h, hn⟩
    · exfalso
      apply inv.goalOpen
      rw [← hn, h]
      exact hin

theorem OptInv.expand [DecidableEq V] {nbrs : V → List V}
    {cost : V → V → Option ℚ} {hf : V → ℚ} {start goal : V}
    (hnn : ∀ u v c, cost u v = some c → 0 ≤ c)
    (hcons : ∀ u v c, v ∈ nbrs u → cost u v = some c → hf u ≤ c + hf v)
    (hsep : SepCosts nbrs cost start)
    {st : AState ℚ V} (inv : OptInv nbrs cost hf start goal st)
    (e0 : Entry ℚ V) (rest : List (Entry ℚ V)) (hO : st.openh = e0 :: rest)
    (hup : (popMinAux ratOps e0 rest).1.node ∉ st.order)
    (hgoal : (popMinAux ratOps e0 rest).1.node ≠ goal)
    {du : ℚ}
    (hdu : alookup st.g (popMinAux ratOps e0 rest).1.node = some du) :
    OptInv nbrs cost hf start goal
      (relaxNbrs ratOps goal cost hf 1 (popMinAux ratOps e0 rest).1.node du
        (nbrs (popMinAux ratOps e0 rest).1.node)
        (closeNode { st with openh := (popMinAux ratOps e0 rest).2 }
          (popMinAux ratOps e0 rest).1.node)) := by
  have hRu : Reach nbrs cost start (popMinAux ratOps e0 rest).1.node du :=
    inv.gReach _ du hdu
  have mid0 : MidInv nbrs cost hf start goal
      (popMinAux ratOps e0 rest).1.node du
      (closeNode { st with openh := (popMinAux ratOps e0 rest).2 }
        (popMinAux ratOps e0 rest).1.node) := by
    refine ⟨inv.gReach, inv.startG, ?_, ?_, ?_, ?_, ?_, ?_, ?_,
      inv.bestReach, ?_, ?_, hdu⟩
    · intro e he
      exact inv.heapG e
        (by rw [hO]; exact popMinAux_snd_subset ratOps e0 rest e he)
    · intro w hw
      rw [closeNode] at hw
      simp only [List.mem_append, List.mem_singleton] at hw
      rcases hw with hw | rfl
      · exact inv.closedG w hw
      · exact ⟨du, hdu⟩
    · intro w hw d hd D hD
      rw [closeNode] at hw
      simp only [List.mem_append, List.mem_singleton] at hw
      rcases hw with hw | rfl
      · exact inv.closedOpt w hw d hd D hD
      · have hd2 : alookup st.g (popMinAux ratOps e0 rest).1.node =
            some d := hd
        rw [hdu] at hd2
        injection hd2 with hd2
        subst hd2
        exact pop_opt hcons inv e0 rest hO hup hdu hD
    · intro w hw hwne v hv c hc dw hdw
      rw [closeNode] at hw
      simp only [List.mem_append, List.mem_singleton] at hw
      rcases hw with hw | rfl
      · exact inv.closedRelax w hw v hv c hc dw hdw
      · exact absurd rfl hwne
    · intro x hx dx hdx
      rw [closeNode] at hx
      simp only [List.mem_append, List.mem_singleton, not_or] at hx
      obtain ⟨hx1, hx2⟩ := hx
      obtain ⟨e, he, hn, hb⟩ := inv.openBound x hx1 dx hdx
      rw [hO] at he
      rcases popMinAux_mem_or_eq ratOps e0 rest e he with h | h
      · exact ⟨e, h, hn, hb⟩
      · exfalso
        apply hx2
        rw [← hn, h]
    · intro e he d hd
      exact inv.entryF e
        (by rw [hO]; exact popMinAux_snd_subset ratOps e0 rest e he) d hd
    · rw [closeNode]
      simp only [List.mem_append, List.mem_singleton, not_or]
      exact ⟨inv.goalOpen, fun h => hgoal h.symm⟩
    · intro b hb
      obtain ⟨e, he, hn⟩ := inv.bestHeap b hb
      rw [hO] at he
      rcases popMinAux_mem_or_eq ratOps e0 rest e he with h | h
      · exact ⟨e, h, hn⟩
      · exfalso
        apply hgoal
        rw [← h]
        exact hn
    · rw [closeNode]
      exact List.mem_append_right _ (List.mem_singleton.mpr rfl)
  obtain ⟨midF, monoF, pbF⟩ := relaxNbrs_mid hnn hsep hRu
    (nbrs (popMinAux ratOps e0 rest).1.node) _ mid0 (fun v hv => hv)
  refine ⟨midF.gReach, midF.startG, midF.heapG, midF.closedG,
    midF.closedOpt, ?_, midF.openBound, midF.entryF, midF.goalOpen,
    midF.bestReach, midF.bestHeap⟩
  intro w hw v hv c hc dw hdw
  by_cases hwu : w = (popMinAux ratOps e0 rest).1.node
  · subst hwu
    rw [midF.uG] at hdw
    injection hdw with hdw
    subst hdw
    exact pbF v hv c hc
  · exact midF.closedRelaxExc w hw hwu v hv c hc dw hdw

theorem initState_OptInv [DecidableEq V] (nbrs : V → List V)
    (cost : V → V → Option ℚ) (hf : V → ℚ) (start goal : V) :
    OptInv nbrs cost hf start goal (initState ratOps start hf 1) := by
  have hstartG : alookup (initState ratOps start hf 1).g start =
      some 0 := by
    rw [initState, alookup, if_pos rfl]
    rfl
  refine ⟨?_, hstartG, ?_, ?_, ?_, ?_, ?_, ?_, ?_, ?_, ?_⟩
  · intro v d h
    rw [initState, alookup] at h
    by_cases hv : v = start
    · rw [if_pos hv] at h
      injection h with h
      subst h
      subst hv
      exact Reach.base
    · rw [if_neg hv, alookup] at h
      cases h
  · intro e he
    rw [initState] at he
    simp only [List.mem_singleton] at he
    subst he
    exact ⟨0, hstartG⟩
  · intro w hw
    rw [initState] at hw
    cases hw
  · intro w hw
    rw [initState] at hw
    cases hw
  · intro w hw
    rw [initState] at hw
    cases hw
  · intro x _ dx hdx
    rw [initState, alookup] at hdx
    by_cases hx : x = start
    · rw [if_pos hx] at hdx
      injection hdx with hdx
      subst hdx
      subst hx
      refine ⟨⟨ratOps.mul (hf x) 1, hf x, 0, x⟩, ?_, rfl, ?_⟩
      · rw [initState]
        exact List.mem_singleton.mpr rfl
      · rw [ratOps_mul, mul_one, ratOps_zero, zero_add]
    · rw [if_neg hx, alookup] at hdx
      cases hdx
  · intro e he d hd
    rw [initState] at he
    simp only [List.mem_singleton] at he
    subst he
    rw [hstartG] at hd
    injection hd with hd
    subst hd
    rw [ratOps_mul, mul_one, zero_add]
  · rw [initState]
    exact List.not_mem_nil goal
  · intro b hb
    rw [initState] at hb
    cases hb
  · intro b hb
    rw [initState] at hb
    cases hb

theorem astarLoop_opt [DecidableEq V] {nbrs : V → List V}
    {cost : V → V → Option ℚ} {hf : V → ℚ} {start goal : V}
    (hnn : ∀ u v c, cost u v = some c → 0 ≤ c)
    (hcons : ∀ u v c, v ∈ nbrs u → cost u v = some c → hf u ≤ c + hf v)
    (hgoal0 : hf goal = 0)
    (hsep : SepCosts nbrs cost start)
    (epsOpt : Option ℚ) (heps : 0 ≤ epsOpt.getD 0) :
    ∀ (fuel iter : ℕ) (st : AState ℚ V) (res : AResult ℚ V),
      OptInv nbrs cost hf start goal st →
      astarLoop ratOps goal nbrs cost hf
        ⟨1, epsOpt, none, fun _ => false, none⟩ fuel iter st = some res →
      (∀ d, res.cost = some d → Reach nbrs cost start goal d ∧
        ∀ D, Reach nbrs cost start goal D →
          d ≤ (1 + epsOpt.getD 0) * D) ∧
      (res.cost = none → ∀ D, ¬ Reach nbrs cost start goal D) := by
  intro fuel
  induction fuel with
  | zero =>
    intro iter st res _ h
    cases h
  | succ f ih =>
    intro iter st res inv h
    rw [astarLoop] at h
    cases hO : st.openh with
    | nil =>
      rw [hO] at h
      injection h with h
      subst h
      constructor
      · intro d hd
        rw [bestResult] at hd
        cases hbn : st.bestNode with
        | none =>
          rw [hbn] at hd
          cases hd
        | some n =>
          rw [hbn] at hd
          dsimp only at hd
          obtain ⟨e, he, _⟩ := inv.bestHeap d hd
          rw [hO] at he
          exact absurd he (List.not_mem_nil e)
      · intro _ D hD
        obtain ⟨e, he, _⟩ := inv.cover hcons hD inv.goalOpen
        rw [hO] at he
        exact absurd he (List.not_mem_nil e)
    | cons e0 rest =>
      rw [hO] at h
      dsimp only [capCond, beamPrune] at h
      rw [if_neg Bool.false_ne_true] at h
      rw [if_neg Bool.false_ne_true] at h
      by_cases hex : epsExitCond ratOps
          ⟨1, epsOpt, none, fun _ => false, none⟩ st.bestCost
          (popMinAux ratOps e0 rest).1.f = true
      · rw [if_pos hex] at h
        injection h with h
        subst h
        constructor
        · intro d hd
          dsimp only at hd
          refine ⟨inv.bestReach d hd, ?_⟩
          intro D hD
          have hex1 : epsExitCond ratOps
              ⟨1, epsOpt, none, fun _ => false, none⟩ (some d)
              (popMinAux ratOps e0 rest).1.f = true := by
            rw [← hd]
            exact hex
          cases hepsO : epsOpt with
          | none =>
            rw [hepsO] at hex1
            exact Bool.noConfusion hex1
          | some eps =>
            rw [hepsO] at hex1
            have heps2 : (0 : ℚ) ≤ eps := by
              rw [hepsO] at heps
              simpa using heps
            have hble : ratOps.ble d (ratOps.mul (ratOps.add ratOps.one eps)
                (popMinAux ratOps e0 rest).1.f) = true := hex1
            have hb2 : d ≤ ratOps.mul (ratOps.add ratOps.one eps)
                (popMinAux ratOps e0 rest).1.f := (ratOps_ble _ _).mp hble
            rw [ratOps_mul, ratOps_add, ratOps_one] at hb2
            have hfD : (popMinAux ratOps e0 rest).1.f ≤ D := by
              obtain ⟨e, he, hef⟩ := inv.cover hcons hD inv.goalOpen
              rw [hO] at he
              have hmin := popMinAux_min e0 rest e he
              have h1 : (popMinAux ratOps e0 rest).1.f ≤ e.f := by
                rcases (entryLt_ratOps_false _ _).mp hmin with
                  hlt | ⟨heq2, _⟩
                · exact le_of_lt hlt
                · exact le_of_eq heq2
              rw [hgoal0] at hef
              linarith
            simp only [Option.getD_some]
            have h1e : (0 : ℚ) ≤ 1 + eps := by linarith [heps2]
            calc d ≤ (1 + eps) * (popMinAux ratOps e0 rest).1.f := hb2
              _ ≤ (1 + eps) * D := mul_le_mul_of_nonneg_left hfD h1e
        · intro hnone D hD
          dsimp only at hnone
          obtain ⟨b, hb⟩ := epsExitCond_some ratOps _ _ _ hex
          rw [hnone] at hb
          exact Option.noConfusion hb
      · rw [if_neg hex] at h
        by_cases hcl : (popMinAux ratOps e0 rest).1.node ∈ st.order
        · rw [if_pos hcl] at h
          exact ih (iter + 1) _ res (inv.popped_skip e0 rest hO hcl) h
        · rw [if_neg hcl] at h
          obtain ⟨du, hdu⟩ := inv.heapG (popMinAux ratOps e0 rest).1
            (by rw [hO]; exact popMinAux_fst_mem ratOps e0 rest)
          by_cases hg : (popMinAux ratOps e0 rest).1.node = goal
          · rw [if_pos hg] at h
            injection h with h
            subst h
            constructor
            · intro d hd
              dsimp only at hd
              have hd2 : alookup st.g (popMinAux ratOps e0 rest).1.node =
                  some d := hd
              rw [hdu] at hd2
              injection hd2 with hd2
              subst hd2
              constructor
              · rw [← hg]
                exact inv.gReach _ du hdu
              · intro D hD
                rw [← hg] at hD
                have hle : du ≤ D := pop_opt hcons inv e0 rest hO hcl hdu hD
                have hD0 : 0 ≤ D := Reach_nonneg hnn hD
                have hmul := mul_nonneg heps hD0
                have hexp : (1 + epsOpt.getD 0) * D =
                    D + epsOpt.getD 0 * D := by ring
                rw [hexp]
                linarith
            · intro hnone
              dsimp only at hnone
              have hn2 : alookup st.g (popMinAux ratOps e0 rest).1.node =
                  none := hnone
              rw [hdu] at hn2
              exact fun D _ => Option.noConfusion hn2
          · rw [if_neg hg] at h
            have hgd : (alookup (closeNode
                { st with openh := (popMinAux ratOps e0 rest).2 }
                (popMinAux ratOps e0 rest).1.node).g
                (popMinAux ratOps e0 rest).1.node).getD ratOps.zero =
                du := by
              rw [show alookup (closeNode
                { st with openh := (popMinAux ratOps e0 rest).2 }
                (popMinAux ratOps e0 rest).1.node).g
                (popMinAux ratOps e0 rest).1.node = some du from hdu]
              rfl
            rw [hgd] at h
            exact ih (iter + 1) _ res
              (inv.expand hnn hcons hsep e0 rest hO hcl hg hdu) h

theorem c1cost_nonneg : ∀ u v c, c1cost u v = some c → 0 ≤ c := by
  intro u v c h
  rw [c1cost] at h
  split at h
  · injection h with h
    rw [← h]
    norm_num
  split at h
  · injection h with h
    rw [← h]
    norm_num
  split at h
  · injection h with h
    rw [← h]
    norm_num
  split at h
  · injection h with h
    rw [← h]
    norm_num
  · cases h

theorem c1hf_admissible : ∀ v d, Reach c1nbrs c1cost v 3 d → c1hf v ≤ d := by
  intro v d h
  cases h with
  | base => norm_num [c1hf]
  | @step u _ d' c hr hm hc =>
    have hu : u = 2 := by
      by_cases h0 : u = 0
      · subst h0
        exact absurd hm (by decide)
      · by_cases h1 : u = 1
        · subst h1
          exact absurd hm (by decide)
        · by_cases h2 : u = 2
          · exact h2
          · rw [c1nbrs, if_neg h0, if_neg h1, if_neg h2] at hm
            cases hm
    subst hu
    have h100 : some (100 : ℚ) = some c := hc
    injection h100 with h100
    subst h100
    have hd' : 0 ≤ d' := Reach_nonneg c1cost_nonneg hr
    have hv : c1hf v ≤ 100 := by
      rw [c1hf]
      split
      · norm_num
      · norm_num
    linarith

theorem c1_reach_102 : Reach c1nbrs c1cost 0 3 102 := by
  have r1 : Reach c1nbrs c1cost 0 1 (0 + 1) :=
    Reach.step Reach.base (by decide) rfl
  have r2 : Reach c1nbrs c1cost 0 2 ((0 + 1) + 1) :=
    Reach.step r1 (by decide) rfl
  have r3 : Reach c1nbrs c1cost 0 3 (((0 + 1) + 1) + 100) :=
    Reach.step r2 (by decide) rfl
  have he : (((0 : ℚ) + 1) + 1) + 100 = 102 := by norm_num
  rw [he] at r3
  exact r3

theorem wcost_nonneg : ∀ u v c, wcost u v = some c → 0 ≤ c := by
  intro u v c h
  rw [wcost] at h
  split at h
  · injection h with h
    rw [← h]
    norm_num
  · cases h

theorem w_edge_shape : ∀ u v, v ∈ wnbrs u → u = 0 ∧ v = 1 := by
  intro u v hm
  by_cases h0 : u = 0
  · subst h0
    rw [wnbrs, if_pos rfl] at hm
    exact ⟨rfl, List.mem_singleton.mp hm⟩
  · rw [wnbrs, if_neg h0] at hm
    cases hm

theorem w_reach_char : ∀ v d, Reach wnbrs wcost 0 v d →
    (v = 0 ∧ d = 0) ∨ (v = 1 ∧ d = 1) := by
  intro v d h
  induction h with
  | base => exact Or.inl ⟨rfl, rfl⟩
  | @step u w d' c hr hm hc ih =>
    obtain ⟨hu0, hw1⟩ := w_edge_shape u w hm
    subst hu0
    subst hw1
    rcases ih with ⟨_, hd0⟩ | ⟨h01, _⟩
    · subst hd0
      have h1 : some (1 : ℚ) = some c := hc
      injection h1 with h1
      subst h1
      exact Or.inr ⟨rfl, by norm_num⟩
    · exact absurd h01 (by norm_num)

theorem w_sep : SepCosts wnbrs wcost 0 := by
  intro v d d' h h'
  rcases w_reach_char v d h with ⟨hv, hd⟩ | ⟨hv, hd⟩ <;>
    rcases w_reach_char v d' h' with ⟨hv', hd'⟩ | ⟨hv', hd'⟩
  · exact Or.inl (hd.trans hd'.symm)
  · rw [hv] at hv'
    exact absurd hv' (by norm_num)
  · rw [hv] at hv'
    exact absurd hv' (by norm_num)
  · exact Or.inl (hd.trans hd'.symm)

theorem w_cons : ∀ u v c, v ∈ wnbrs u → wcost u v = some c →
    whf u ≤ c + whf v := by
  intro u v c hm hc
  obtain ⟨hu0, hv1⟩ := w_edge_shape u v hm
  subst hu0
  subst hv1
  have h1 : some (1 : ℚ) = some c := hc
  injection h1 with h1
  subst h1
  norm_num [whf]

theorem w_reach_1 : Reach wnbrs wcost 0 1 1 := by
  have r1 : Reach wnbrs wcost 0 1 (0 + 1) :=
    Reach.step Reach.base (by decide) rfl
  have he : (0 : ℚ) + 1 = 1 := by norm_num
  rw [he] at r1
  exact r1

/-- C1 as stated is false: on a 4-node graph with an admissible (but
inconsistent) heuristic, `astar` with weight 1, no epsilon, no beam and no
caps returns total cost 103, while a path of cost 102 exists — the
closed-set skip makes the search miss the re-relaxation of node 2, so the
returned cost differs from every reference shortest-path computation. -/
theorem astar_admissible_counterexample :
    (∀ v d, Reach c1nbrs c1cost v 3 d → c1hf v ≤ d) ∧
    (∀ v : ℕ, 0 ≤ c1hf v) ∧
    astar ratOps 0 3 c1nbrs c1cost c1hf
      ⟨1, none, none, fun _ => false, none⟩ 20 =
      some ⟨some [0, 2, 3], some 103, 4, [0, 2, 1, 3]⟩ ∧
    Reach c1nbrs c1cost 0 3 102 ∧
    ¬ IsShortestPathCost c1nbrs c1cost 0 3 103 := by
  refine ⟨c1hf_admissible, ?_, by decide, c1_reach_102, ?_⟩
  · intro v
    rw [c1hf]
    split
    · norm_num
    · norm_num
  · rintro ⟨-, hle⟩
    have := hle 102 c1_reach_102
    norm_num at this

/-- C1 (amended): with a *consistent* heuristic vanishing at the goal,
nonnegative edge costs, and path costs separated by more than the `1e-12`
relaxation tolerance, `astar` over exact rationals with weight 1, no
epsilon, no beam and no caps returns exactly the shortest start-to-goal
path cost of the reference specification (`IsShortestPathCost`), and
returns infinite cost (`none`) exactly when the goal is unreachable.
Termination (enough fuel for the embedded loop) is a hypothesis. -/
theorem astar_dijkstra_equiv (V : Type) [DecidableEq V] (start goal : V)
    (nbrs : V → List V) (cost : V → V → Option ℚ) (hf : V → ℚ)
    (fuel : ℕ) (res : AResult ℚ V)
    (hnn : ∀ u v c, cost u v = some c → 0 ≤ c)
    (hcons : ∀ u v c, v ∈ nbrs u → cost u v = some c → hf u ≤ c + hf v)
    (hgoal0 : hf goal = 0)
    (hsep : SepCosts nbrs cost start)
    (hrun : astar ratOps start goal nbrs cost hf
      ⟨1, none, none, fun _ => false, none⟩ fuel = some res) :
    (∀ d, res.cost = some d → IsShortestPathCost nbrs cost start goal d) ∧
    (res.cost = none → ∀ d, ¬ Reach nbrs cost start goal d) := by
  rw [astar] at hrun
  by_cases hsg : start = goal
  · rw [if_pos hsg] at hrun
    injection hrun with hrun
    subst hrun
    constructor
    · intro d hd
      have hd2 : some (0 : ℚ) = some d := hd
      injection hd2 with hd2
      subst hsg
      rw [← hd2]
      exact ⟨Reach.base, fun d' hd' => Reach_nonneg hnn hd'⟩
    · intro hnone
      have hn2 : some (0 : ℚ) = none := hnone
      exact absurd hn2 (by simp)
  · rw [if_neg hsg] at hrun
    obtain ⟨h1, h2⟩ := astarLoop_opt hnn hcons hgoal0 hsep none
      (le_refl 0) fuel 0 _ res
      (initState_OptInv nbrs cost hf start goal) hrun
    constructor
    · intro d hd
      obtain ⟨hr, hb⟩ := h1 d hd
      refine ⟨hr, ?_⟩
      intro d' hd'
      have := hb d' hd'
      simpa using this
    · exact h2

theorem astar_dijkstra_equiv_witness :
    IsShortestPathCost wnbrs wcost 0 1 1 :=
  (astar_dijkstra_equiv ℕ 0 1 wnbrs wcost whf 10
    ⟨some [0, 1], some 1, 2, [0, 1]⟩ wcost_nonneg w_cons rfl w_sep
    (by decide)).1 1 rfl

/-- C5 as stated is false: with a merely admissible (inconsistent)
heuristic and `epsilon = 0`, the epsilon early exit returns cost 103 even
though the optimum is 102, exceeding the claimed `(1+epsilon)` factor. -/
theorem astar_epsilon_counterexample :
    (∀ v d, Reach c1nbrs c1cost v 3 d → c1hf v ≤ d) ∧
    astar ratOps 0 3 c1nbrs c1cost c1hf
      ⟨1, some 0, none, fun _ => false, none⟩ 20 =
      some ⟨some [0, 2, 3], some 103, 3, [0, 2, 1]⟩ ∧
    Reach c1nbrs c1cost 0 3 102 ∧
    ¬ ((103 : ℚ) ≤ (1 + 0) * 102) := by
  exact ⟨c1hf_admissible, by decide, c1_reach_102, by norm_num⟩

/-- C5 (amended): with a *consistent* heuristic vanishing at the goal,
nonnegative edge costs, tolerance-separated path costs, weight 1,
`0 ≤ epsilon` and no beam or caps, every cost that `astar` returns is at
most `(1+epsilon)` times the cost of every start-to-goal path; and the
early-exit trigger is exactly `best_goal_cost ≤ (1+epsilon)·f` for the
f-value of the entry popped this iteration, checked before expansion. -/
theorem astar_epsilon_bound (V : Type) [DecidableEq V] (start goal : V)
    (nbrs : V → List V) (cost : V → V → Option ℚ) (hf : V → ℚ) (eps : ℚ)
    (fuel : ℕ) (res : AResult ℚ V)
    (hnn : ∀ u v c, cost u v = some c → 0 ≤ c)
    (hcons : ∀ u v c, v ∈ nbrs u → cost u v = some c → hf u ≤ c + hf v)
    (hgoal0 : hf goal = 0)
    (hsep : SepCosts nbrs cost start)
    (heps : 0 ≤ eps)
    (hrun : astar ratOps start goal nbrs cost hf
      ⟨1, some eps, none, fun _ => false, none⟩ fuel = some res) :
    (∀ d, res.cost = some d → Reach nbrs cost start goal d ∧
      ∀ D, Reach nbrs cost start goal D → d ≤ (1 + eps) * D) ∧
    (∀ b f, epsExitCond ratOps
        (⟨1, some eps, none, fun _ => false, none⟩ : AParams ℚ)
        (some b) f = true ↔ b ≤ (1 + eps) * f) := by
  constructor
  · rw [astar] at hrun
    by_cases hsg : start = goal
    · rw [if_pos hsg] at hrun
      injection hrun with hrun
      subst hrun
      intro d hd
      have hd2 : some (0 : ℚ) = some d := hd
      injection hd2 with hd2
      subst hsg
      rw [← hd2]
      refine ⟨Reach.base, ?_⟩
      intro D hD
      exact mul_nonneg (by linarith) (Reach_nonneg hnn hD)
    · rw [if_neg hsg] at hrun
      obtain ⟨h1, _⟩ := astarLoop_opt hnn hcons hgoal0 hsep (some eps)
        (by simpa using heps) fuel 0 _ res
        (initState_OptInv nbrs cost hf start goal) hrun
      intro d hd
      obtain ⟨hr, hb⟩ := h1 d hd
      refine ⟨hr, ?_⟩
      intro D hD
      have := hb D hD
      simpa using this
  · intro b f
    have he : epsExitCond ratOps
        (⟨1, some eps, none, fun _ => false, none⟩ : AParams ℚ)
        (some b) f = ratOps.ble b (ratOps.mul (ratOps.add ratOps.one eps)
          f) := rfl
    rw [he, ratOps_ble, ratOps_mul, ratOps_add, ratOps_one]

theorem astar_epsilon_bound_witness : (1 : ℚ) ≤ (1 + 1) * 1 :=
  ((astar_epsilon_bound ℕ 0 1 wnbrs wcost whf 1 10
    ⟨some [0, 1], some 1, 1, [0]⟩ wcost_nonneg w_cons rfl w_sep
    (by norm_num) (by decide)).1 1 rfl).2 1 w_reach_1
